import Mathlib

/-!
A shallow embedding of the compressed radix trie `trie::trie_map` from
`src/trie.h`, with proofs about its operations.

Modelling conventions.

* Atoms (the template parameter `AtomT`, primarily a byte) are modelled as
  `Nat`, the unsigned value of the atom.  `x & mask` becomes `Nat.land`
  (written `&&&`), `x ^ y` becomes `Nat.xor` (written `^^^`), and for an
  unsigned machine word `v` the expression `v & -v` (isolating the lowest set
  bit; `-v` is two's complement) equals `v &&& (v ^^^ (v - 1))` on `Nat`,
  which is the rendering used below.
* A `TrieNode` owns a label slice (`PrefixHolder` data), a value slot
  (`ValueHolder` data) and a sparse child table `self_pointer data[size]`.
  The label is modelled as a plain `List Nat` (the arena is modelled
  separately where a claim is about the arena itself), the child table as a
  `List (Option (Node W))` whose length is the table `size`, and the value
  slot as a value of an abstract holder-state type `W` together with a
  `Holder` record packaging `has_value` / `get_value` / `set_value` and the
  default-constructed state.  The two instantiations used by the claims are
  `ValueHolder<ValueT>` (`W = Option V`) and `ValueHolder<SetCounter>`
  (`W = Int`, `has_value ↔ count ≠ 0`).
* Node pointers and the `std::deque` edge store are replaced by a purely
  functional tree; mutation becomes rebuilding along the descent path.
* The fallible parts of the iterator machinery (a `normalize()` call through
  a null `shared_ptr`, and `find_prefix_int`'s read of the uninitialized
  local `inputEnd`) are modelled by explicit error constructors of the
  result types, so that the model can express where the C++ has undefined
  behaviour.
-/

namespace Trie

/-- An atom, the unsigned value of `AtomT`. -/
abbrev Atom := Nat

/-- Models `TrieNode::atom_hash(x, mask) = (x & mask)`. -/
def atom_hash (x mask : Nat) : Nat := x &&& mask

/-- Models `TrieNode::least_uncolliding_size(a, b)`:
`unsigned v = a ^ b; return (v & -v) << 1;`.
On `Nat`, the unsigned two's-complement expression `v & -v` is
`v &&& (v ^^^ (v - 1))`. -/
def least_uncolliding_size (a b : Atom) : Nat :=
  let v := a ^^^ b
  (v &&& (v ^^^ (v - 1))) <<< 1

/-- The holder interface of `ValueHolder`: `W` is the holder state,
`V` the effective value type (`value_type`). -/
structure Holder (W V : Type) where
  /-- Models `has_value()`. -/
  hasv : W → Bool
  /-- Models `get_value()` (only meaningful when `hasv`). -/
  getv : W → V
  /-- Models `set_value(x)`: the state after storing `x` (the result of
  `set_value` does not depend on the previous state in either variant). -/
  setv : V → W
  /-- The default-constructed holder state (`auto_ptr` null / `count = 0`). -/
  fresh : W

/-- Models `ValueHolder<ValueT>`: an optional owned value. -/
def mapHolder (V : Type) [Inhabited V] : Holder (Option V) V where
  hasv s := s.isSome
  getv s := s.getD default
  setv v := some v
  fresh := none

/-- Models `ValueHolder<SetCounter>`: the value held by the signed 32-bit
`int count`, with `has_value ↔ count ≠ 0`, `set_value` storing the count and
`0` the default.  Storing, reading and the zero test involve no arithmetic,
so an `Int` carries the held value exactly; the `int` arithmetic performed
by `add`'s replace policy (`old += n`) is modelled separately by `intAdd`,
which is undefined (overflow) outside `[INT_MIN, INT_MAX]`, and the counter
theorems stay inside that range. -/
def cntHolder : Holder Int Int where
  hasv s := decide (s ≠ 0)
  getv s := s
  setv v := v
  fresh := 0

/-- `INT_MAX` of the 32-bit `int` backing `ValueHolder<SetCounter>::count`. -/
def INT_MAX : Int := 2147483647

/-- `INT_MIN` of the same `int`. -/
def INT_MIN : Int := -2147483648

/-- The C++ signed-`int` addition run by `add`'s replace policy
`old += n`: defined — and equal to integer addition — while the result is
representable, undefined behaviour (`none`) on signed overflow. -/
def intAdd (old n : Int) : Option Int :=
  if INT_MIN ≤ old + n ∧ old + n ≤ INT_MAX then some (old + n) else none

/-- A trie node: the `PrefixHolder` label slice (as the list of its atoms),
the `ValueHolder` state, and the sparse child table `data[0..size)`
(`none` models a null slot). -/
inductive Node (W : Type) : Type where
  | mk (label : List Atom) (slot : W) (children : List (Option (Node W)))

namespace Node

variable {W : Type}

/-- The label slice `[kbegin(), kend())` of the node. -/
def label : Node W → List Atom
  | .mk l _ _ => l

/-- The `ValueHolder` state of the node. -/
def slot : Node W → W
  | .mk _ s _ => s

/-- The child table `data[0..size)` of the node. -/
def children : Node W → List (Option (Node W))
  | .mk _ _ cs => cs

@[simp] theorem label_mk (l : List Atom) (s : W) (cs : List (Option (Node W))) :
    (Node.mk l s cs).label = l := rfl

@[simp] theorem slot_mk (l : List Atom) (s : W) (cs : List (Option (Node W))) :
    (Node.mk l s cs).slot = s := rfl

@[simp] theorem children_mk (l : List Atom) (s : W) (cs : List (Option (Node W))) :
    (Node.mk l s cs).children = cs := rfl

/-- Models `*kbegin()`, the first atom of the label (meaningful only when the
label is non-empty, which invariant I2 guarantees for every child). -/
def kfirst (n : Node W) : Atom := n.label.headD 0

/-- Replace the value slot (used for `set_value` / `insert_value` on a node). -/
def withSlot : Node W → W → Node W
  | .mk l _ cs, s => .mk l s cs

/-- Replace the child table. -/
def withChildren : Node W → List (Option (Node W)) → Node W
  | .mk l s _, cs => .mk l s cs

@[simp] theorem label_withSlot (n : Node W) (s : W) : (n.withSlot s).label = n.label := by
  cases n; rfl

@[simp] theorem slot_withSlot (n : Node W) (s : W) : (n.withSlot s).slot = s := by
  cases n; rfl

@[simp] theorem children_withSlot (n : Node W) (s : W) :
    (n.withSlot s).children = n.children := by
  cases n; rfl

@[simp] theorem label_withChildren (n : Node W) (cs : List (Option (Node W))) :
    (n.withChildren cs).label = n.label := by cases n; rfl

@[simp] theorem slot_withChildren (n : Node W) (cs : List (Option (Node W))) :
    (n.withChildren cs).slot = n.slot := by cases n; rfl

@[simp] theorem children_withChildren (n : Node W) (cs : List (Option (Node W))) :
    (n.withChildren cs).children = cs := by cases n; rfl

end Node

variable {W : Type}

/-- Models `TrieNode::resize(new_size)`: allocate a `new_size`-slot table of
null pointers; if the table grows, re-place every live child at
`atom_hash(*child->kbegin(), new_size - 1)` (a later write overwrites an
earlier one, which is how the C++ would silently lose a child on a rehash
collision); otherwise the old entries are dropped. -/
def resize (data : List (Option (Node W))) (new_size : Nat) : List (Option (Node W)) :=
  let ndata : List (Option (Node W)) := List.replicate new_size none
  if data.length < new_size then
    data.foldl
      (fun nd c =>
        match c with
        | none => nd
        | some e => nd.set (atom_hash e.kfirst (new_size - 1)) (some e))
      ndata
  else ndata

/-- Models `TrieNode::find(x)`: single-probe lookup at slot
`atom_hash(x, size - 1)`; a hit iff the slot is non-null and the occupant's
label starts with `x`.  Returns the probed index together with the child
(the C++ returns the `map_iterator`, i.e. the slot's address). -/
def tableFind (data : List (Option (Node W))) (x : Atom) : Option (Nat × Node W) :=
  if data.length ≠ 0 then
    let i := atom_hash x (data.length - 1)
    match data.getD i none with
    | some e => if e.kfirst = x then some (i, e) else none
    | none => none
  else none

/-- Models `TrieNode::put(edge)`: grow an empty table to 2 slots; probe
`atom_hash(x, size - 1)`; on a collision with a child whose first atom is
`b`, resize to `least_uncolliding_size(x, b)` and store at the new hash. -/
def put (data : List (Option (Node W))) (edge : Node W) : List (Option (Node W)) :=
  let x := edge.kfirst
  let data := if data.length = 0 then resize data 2 else data
  let hash := atom_hash x (data.length - 1)
  match data.getD hash none with
  | none => data.set hash (some edge)
  | some c =>
      let data2 := resize data (least_uncolliding_size x c.kfirst)
      data2.set (atom_hash x (data2.length - 1)) (some edge)

/-- Models `TrieNode::split(next, breakIdx)` where `next = new_edge(hint)` is
a freshly constructed node (empty label, default `ValueHolder` state `fresh`,
`hint`-slot child table): `psplit` leaves this node the first `breakIdx` label
atoms and gives `next` the rest; the child table and the value are swapped
(so `next` takes this node's children and value and this node takes the fresh
`hint`-slot table and the fresh value); finally `put(next)`. -/
def Node.split (n : Node W) (fresh : W) (hint : Nat) (breakIdx : Nat) : Node W :=
  match n with
  | .mk lbl s cs =>
    let next : Node W := .mk (lbl.drop breakIdx) s cs
    Node.mk (lbl.take breakIdx) fresh (put (List.replicate hint none) next)

/-- The lockstep label/input matching loop of `general_search`:
`while (it != end) and (k != kend) and (*k == *it) { ++k; ++it; }`.
`matchLen lbl key` is the number of positions advanced. -/
def matchLen : List Atom → List Atom → Nat
  | k :: ks, i :: is => if k = i then matchLen ks is + 1 else 0
  | _, _ => 0

/-- The terminal outcome of `general_search`: exactly one of the four
terminal actions is invoked.  `k` is the break offset into the reached
node's full label (the C++ hands the action the iterator `eit`, and the
callers use `eit - n->kbegin()`); `kit` is the unconsumed input suffix. -/
inductive Outcome (W : Type) where
  | exactMatch (n : Node W)
  | endInTheMiddle (n : Node W) (k : Nat)
  | splitInTheMiddle (n : Node W) (k : Nat) (kit : List Atom)
  | noNextEdge (n : Node W) (kit : List Atom)

/-- The result of `general_search` together with the data accumulated by the
callers' `edgeAction`s: `path` is the sequence of slot indices of the edges
descended (what `find` pushes), `lastEdge` is the input offset at which the
last `edgeAction` was invoked (what `find_prefix_int` stores in `inputEnd`;
`none` when no edge was descended, i.e. `inputEnd` stays uninitialized), and
`descents` counts loop iterations that descended an edge. -/
structure SearchResult (W : Type) where
  outcome : Outcome W
  path : List Nat
  lastEdge : Option Nat
  descents : Nat

/-- Models `trie_map::general_search(n, it, end, ...)`.  `loff` is the offset
of `kbegin` into the current node's label: `0` on entry, `1` after descending
an edge (`kbegin = n->kbegin() + 1`, the first atom having been matched by
`find`).  `key` is the unconsumed input `[it, end)`. -/
def generalSearch (n : Node W) (loff : Nat) (key : List Atom) : SearchResult W :=
  let lbl := n.label.drop loff
  let m := matchLen lbl key
  match hk : key.drop m with
  | [] =>
      -- it == end
      if lbl.drop m = [] then
        ⟨.exactMatch n, [], none, 0⟩
      else
        ⟨.endInTheMiddle n (loff + m), [], none, 0⟩
  | x :: krest =>
      if lbl.drop m ≠ [] then
        -- k != kend
        ⟨.splitInTheMiddle n (loff + m) (x :: krest), [], none, 0⟩
      else
        match tableFind n.children x with
        | none => ⟨.noNextEdge n (x :: krest), [], none, 0⟩
        | some (i, c) =>
            -- edgeAction(next_edge, it); descend; kbegin = kbegin + 1; ++it
            let r := generalSearch c 1 krest
            ⟨r.outcome, i :: r.path,
              some (match r.lastEdge with
                    | none => m
                    | some p => m + 1 + p),
              r.descents + 1⟩
termination_by key.length
decreasing_by
  have hlen := congrArg List.length hk
  simp at hlen
  omega

/-- Models `trie_map::insert_value(at, value, replace)`: if the node has a
value, `replace(old, new)` updates the stored value in place, otherwise
`set_value(value)`. -/
def insert_value {V : Type} (H : Holder W V) (replace : V → V → V) (s : W) (v : V) : W :=
  if H.hasv s then H.setv (replace (H.getv s) v) else H.setv v

/-- Models the recursive body of `trie_map::insert(it, end, value, replace)`
on a non-empty trie: `general_search` with the five insertion actions fused
in, rebuilding the tree along the descent path.  Returns the new subtree and
whether `++msize` was executed (every terminal action increments except
*exactMatch*). -/
def insertGo {V : Type} (H : Holder W V) (replace : V → V → V) (v : V)
    (n : Node W) (loff : Nat) (key : List Atom) : Node W × Bool :=
  let lbl := n.label.drop loff
  let m := matchLen lbl key
  match hk : key.drop m with
  | [] =>
      if lbl.drop m = [] then
        -- exactMatch: insert_value(*n, value, replace)
        (n.withSlot (insert_value H replace n.slot v), false)
      else
        -- endInTheMiddle: n->split(new_edge(1), eit - kbegin); n->set_value(value); ++msize
        ((n.split H.fresh 1 (loff + m)).withSlot (H.setv v), true)
  | x :: krest =>
      if lbl.drop m ≠ [] then
        -- splitInTheMiddle: n->split(new_edge(2), eit - kbegin);
        -- insert_edge(n, kit, end, value); ++msize
        let n1 := n.split H.fresh 2 (loff + m)
        (n1.withChildren (put n1.children (Node.mk (x :: krest) (H.setv v) [])), true)
      else
        match tableFind n.children x with
        | none =>
            -- noNextEdge: insert_edge(n, kit, end, value); ++msize
            (n.withChildren (put n.children (Node.mk (x :: krest) (H.setv v) [])), true)
        | some (i, c) =>
            -- edgeAction: descend and rebuild the modified child in place
            let r := insertGo H replace v c 1 krest
            (n.withChildren (n.children.set i (some r.1)), r.2)
termination_by key.length
decreasing_by
  have hlen := congrArg List.length hk
  simp at hlen
  omega

/-- The `trie_map` state: `root = none` models `edges.empty()` (the root node
is the first element of the edge store), `msize` the element counter. -/
structure TrieMap (W : Type) where
  root : Option (Node W)
  msize : Nat

namespace TrieMap

/-- A default-constructed `trie_map`. -/
def empty : TrieMap W := ⟨none, 0⟩

variable {V : Type}

/-- Models `trie_map::insert(it, end, value, replace)`: on an empty trie,
`insert_edge(nullptr, it, end, value); ++msize` creates the root leaf;
otherwise run the fused `general_search`. -/
def insertP (H : Holder W V) (replace : V → V → V)
    (t : TrieMap W) (key : List Atom) (v : V) : TrieMap W :=
  match t.root with
  | none => ⟨some (Node.mk key (H.setv v) []), t.msize + 1⟩
  | some r =>
      let res := insertGo H replace v r 0 key
      ⟨some res.1, if res.2 then t.msize + 1 else t.msize⟩

/-- Models `trie_map::insert(it, end, value)`:
`insert` with `replace = [](old, n) { old = n; }`. -/
def insert (H : Holder W V) (t : TrieMap W) (key : List Atom) (v : V) : TrieMap W :=
  insertP H (fun _old n => n) t key v

/-- Models `trie_map::add(it, end, value)`:
`insert` with `replace = [](old, n) { old += n; }`. -/
def add [Add V] (H : Holder W V) (t : TrieMap W) (key : List Atom) (v : V) : TrieMap W :=
  insertP H (fun old n => old + n) t key v

/-- Models `trie_map::size()`. -/
def size (t : TrieMap W) : Nat := t.msize

/-- Models `trie_map::get(it, end)`: `nullptr` on an empty trie; otherwise
the value iff the search ends in *exactMatch* at a node with a value. -/
def get (H : Holder W V) (t : TrieMap W) (key : List Atom) : Option V :=
  match t.root with
  | none => none
  | some r =>
      match (generalSearch r 0 key).outcome with
      | .exactMatch n => if H.hasv n.slot then some (H.getv n.slot) else none
      | _ => none

/-- Models `trie_map::contains(it, end)`. -/
def contains (H : Holder W V) (t : TrieMap W) (key : List Atom) : Bool :=
  match t.root with
  | none => false
  | some r =>
      match (generalSearch r 0 key).outcome with
      | .exactMatch n => H.hasv n.slot
      | _ => false

end TrieMap

/-! ## The cursor (`TrieIteratorInternal`) and the public iterator -/

/-- Models `TrieIteratorInternal`: `base_prefix` (`basePref`), the traversal
root `m_root` (`none` models `m_root = nullptr`, the end state), and the
stack `m_ptrs` of child-table slot indices (a stored index may equal the
table size, modelling an iterator parked at `end()` of the table). -/
structure Cursor (W : Type) where
  basePref : List Atom
  mroot : Option (Node W)
  mptrs : List Nat

/-- Follow a stack of slot indices downward from a node. -/
def walkPtrs (n : Node W) : List Nat → Option (Node W)
  | [] => some n
  | i :: rest =>
      match n.children.getD i none with
      | none => none
      | some ch => walkPtrs ch rest

/-- The first index `≥ i` of a non-null slot, or `cs.length` if none
(the scanning loops of `step_down` / `step_fore`). -/
def firstLiveFrom (cs : List (Option (Node W))) (i : Nat) : Nat :=
  if h : i < cs.length then
    if (cs.getD i none).isSome then i else firstLiveFrom cs (i + 1)
  else i
termination_by cs.length - i

namespace Cursor

variable {W : Type}

/-- Models `get(0)`: the current node (top of the walked stack). -/
def get0 (c : Cursor W) : Option (Node W) :=
  c.mroot.bind fun r => walkPtrs r c.mptrs

/-- Models `get(-1)`: the parent frame's node (`nullptr` when the stack is
empty). -/
def getUp (c : Cursor W) : Option (Node W) :=
  match c.mptrs with
  | [] => none
  | _ :: _ => c.mroot.bind fun r => walkPtrs r c.mptrs.dropLast

/-- Models `get()->has_value()` (false on a null current node). -/
def curHasValue {V : Type} (H : Holder W V) (c : Cursor W) : Bool :=
  match c.get0 with
  | some n => H.hasv n.slot
  | none => false

/-- Models `step_down()`: from the current node, advance to its first
non-null child slot and push it. -/
def step_down (c : Cursor W) : Option (Cursor W) :=
  match c.get0 with
  | none => none
  | some x =>
      let i := firstLiveFrom x.children 0
      if i ≠ x.children.length then some { c with mptrs := c.mptrs ++ [i] } else none

/-- Models `step_fore()`: advance the top-of-stack slot iterator past null
slots; the advanced position is stored even on failure (the C++ leaves
`m_ptrs.back()` at `up->end()`), and the flag reports success. -/
def step_fore (c : Cursor W) : Cursor W × Bool :=
  match c.getUp, c.mptrs.getLast? with
  | some up, some last =>
      let j := firstLiveFrom up.children (last + 1)
      ({ c with mptrs := c.mptrs.dropLast ++ [j] }, j ≠ up.children.length)
  | _, _ => (c, false)

/-- Models `step_up()`: pop, then `step_fore()`. -/
def step_up (c : Cursor W) : Cursor W × Bool :=
  step_fore { c with mptrs := c.mptrs.dropLast }

theorem step_fore_fst_mptrs_length (c : Cursor W) :
    (c.step_fore).1.mptrs.length = c.mptrs.length := by
  unfold step_fore
  cases hgu : c.getUp with
  | none => rfl
  | some up =>
      cases hgl : c.mptrs.getLast? with
      | none => rfl
      | some last =>
          have hne : c.mptrs ≠ [] := by
            intro h
            rw [h] at hgl
            simp at hgl
          have hpos : 0 < c.mptrs.length := List.length_pos.mpr hne
          simp [List.length_dropLast]
          omega

theorem step_up_fst_mptrs_length (c : Cursor W) :
    (c.step_up).1.mptrs.length = c.mptrs.dropLast.length := by
  unfold step_up
  rw [step_fore_fst_mptrs_length]

/-- The `while (!m_ptrs.empty()) { if (step_up()) return; } m_root = nullptr;`
tail of `next()`. -/
def nextPop (c : Cursor W) : Cursor W :=
  if h : c.mptrs = [] then { c with mroot := none }
  else
    let r := c.step_up
    if r.2 then r.1 else nextPop r.1
termination_by c.mptrs.length
decreasing_by
  have h1 : (c.step_up).1.mptrs.length = c.mptrs.dropLast.length :=
    step_up_fst_mptrs_length c
  have h3 : 0 < c.mptrs.length := List.length_pos.mpr h
  simp only [List.length_dropLast] at h1
  omega

/-- Models `next()`. -/
def next (c : Cursor W) : Cursor W :=
  match c.step_down with
  | some c' => c'
  | none =>
      let r := c.step_fore
      if r.2 then r.1 else nextPop r.1

/-- Models `next_value()` (the `do { next(); } while (m_root != nullptr and
!get()->has_value());` loop).  The C++ loop terminates because the DFS over a
finite tree is finite; the model makes the bound explicit as `fuel` (callers
pass a bound that dominates the number of `next()` steps).  `none` models
`next_value()` returning `false` (the iterator became `end()`). -/
def nextValueF {V : Type} (H : Holder W V) : Nat → Cursor W → Option (Cursor W)
  | 0, _ => none
  | fuel + 1, c =>
      let c' := c.next
      if c'.mroot.isNone then none
      else if c'.curHasValue H then some c'
      else nextValueF H fuel c'

end Cursor

/-- Models `iterator::normalize()`: if the current node has no value, run
`operator++` (i.e. `next_value()`, resetting `_impl` — result `none` — when
it returns false). -/
def normalizeC {V : Type} (H : Holder W V) (fuel : Nat) (c : Cursor W) : Option (Cursor W) :=
  if c.curHasValue H then some c else Cursor.nextValueF H fuel c

mutual

/-- The number of nodes of a subtree. -/
def nodeCount : Node W → Nat
  | .mk _ _ cs => 1 + nodeCountT cs

/-- The number of nodes below a child table. -/
def nodeCountT : List (Option (Node W)) → Nat
  | [] => 0
  | none :: rest => nodeCountT rest
  | some n :: rest => nodeCount n + nodeCountT rest

end

/-- A fuel bound that dominates the number of `next()` steps of a DFS over
the subtree of `n` (each `next()` either visits a fresh node in preorder or
ends the traversal, so `nodeCount n + 1` steps suffice). -/
def dfsFuel (n : Node W) : Nat := nodeCount n + 1

/-- The result of `trie_map::find`: the end iterator, a positioned iterator,
or the undefined behaviour of `iterator(output)` calling `normalize()`
through a null `shared_ptr` (`_impl->get()` with `_impl == nullptr`). -/
inductive FindResult (W : Type) where
  | endc
  | nullDeref
  | cursor (c : Cursor W)

/-- The result of `trie_map::find_prefix`: the end iterator, a positioned
iterator, the undefined behaviour of `std::copy(it, inputEnd, ...)` reading
the uninitialized local `inputEnd` (never assigned when no edge was
descended), or the undefined behaviour of writing `base_prefix` through a
null `_impl` (only reachable if `normalize()` exhausts the subtree). -/
inductive FindPreResult (W : Type) where
  | endc
  | uninitCopy
  | nullDeref
  | cursor (c : Cursor W)

namespace TrieMap

variable {V : Type}

/-- Models `trie_map::find(it, kend)`.  The non-exact actions and the
exact-match action on a valueless node all `output.reset()`; the returned
`iterator(output)` then calls `normalize()`, which dereferences the null
`_impl` — modelled by `nullDeref`.  On the success path the iterator stack
is the pushed slot path and `normalize()` is the identity (the matched node,
which the path reaches, has a value). -/
def find (H : Holder W V) (t : TrieMap W) (key : List Atom) : FindResult W :=
  match t.root with
  | none => .endc
  | some r =>
      let res := generalSearch r 0 key
      match res.outcome with
      | .exactMatch n =>
          if H.hasv n.slot then .cursor ⟨[], some r, res.path⟩ else .nullDeref
      | _ => .nullDeref

/-- Models `trie_map::find_prefix_int` after the search: on *exactMatch* or
*endInTheMiddle* the iterator is seeded at the reached node, normalized, and
then `std::copy(it, inputEnd, back_inserter(base_prefix))` runs, where `it`
is the original query begin and `inputEnd` was assigned by the last
`edgeAction` — or never assigned at all when no edge was descended. -/
def findPreFinish (H : Holder W V) (n : Node W) (lastEdge : Option Nat)
    (q : List Atom) : FindPreResult W :=
  match normalizeC H (dfsFuel n) ⟨[], some n, []⟩, lastEdge with
  | none, _ => .nullDeref
  | some _, none => .uninitCopy
  | some c', some p => .cursor { c' with basePref := q.take p }

/-- Models `trie_map::find_prefix(it, kend, sink)` (the sink only reports
the exact-match bit and does not affect the returned iterator). -/
def findPre (H : Holder W V) (t : TrieMap W) (q : List Atom) : FindPreResult W :=
  match t.root with
  | none => .endc
  | some r =>
      let res := generalSearch r 0 q
      match res.outcome with
      | .exactMatch n => findPreFinish H n res.lastEdge q
      | .endInTheMiddle n _ => findPreFinish H n res.lastEdge q
      | _ => .endc

/-- Models the exact-match sink of `find_prefix`: invoked iff the search ends
in *exactMatch* at a node with a value. -/
def findPreExact (H : Holder W V) (t : TrieMap W) (q : List Atom) : Bool :=
  match t.root with
  | none => false
  | some r =>
      match (generalSearch r 0 q).outcome with
      | .exactMatch n => H.hasv n.slot
      | _ => false

end TrieMap

/-! ## The two `PrefixHolder` label-storage variants (for the split claim) -/

/-- Models the chunked-arena `PrefixHolder<AtomT, ValueT, CMinChunkSize>`
(`CMinChunkSize > 0`): a chunk handle plus `begin` / `end` offsets.  The
chunk is carried as the list it points into; `eidx` renders the C++ field
`end` (a Lean keyword). -/
structure PrefixHolderC where
  chunk : List Atom
  bidx : Nat
  eidx : Nat

namespace PrefixHolderC

/-- The label slice `[kbegin(), kend()) = chunk[begin .. end)`. -/
def label (p : PrefixHolderC) : List Atom :=
  (p.chunk.drop p.bidx).take (p.eidx - p.bidx)

/-- Models `psplit(next, breakIdx)` of the chunked variant:
`next->chunk = chunk; next->begin = begin + breakIdx; next->end = end;
this->end = next->begin;`.  Returns `(this', next)`. -/
def psplit (p : PrefixHolderC) (breakIdx : Nat) : PrefixHolderC × PrefixHolderC :=
  let nextBegin := p.bidx + breakIdx
  ({ p with eidx := nextBegin },
   { chunk := p.chunk, bidx := nextBegin, eidx := p.eidx })

end PrefixHolderC

/-- Models the per-label specialization `PrefixHolder<AtomT, ValueT, 0>`:
a raw pointer `prefix` plus `prefix_len`.  The pointer is rendered as the
buffer it points into plus an offset. -/
structure PrefixHolder0 where
  buf : List Atom
  off : Nat
  plen : Nat

namespace PrefixHolder0

/-- The label slice `[prefix, prefix + prefix_len)`. -/
def label (p : PrefixHolder0) : List Atom :=
  (p.buf.drop p.off).take p.plen

/-- Models `psplit(next, breakIdx)` of the `CMinChunkSize = 0` variant:
`next->prefix = prefix + breakIdx; next->prefix_len = prefix_len - breakIdx;
this->prefix_len -= next->prefix_len;`.  Returns `(this', next)`. -/
def psplit (p : PrefixHolder0) (breakIdx : Nat) : PrefixHolder0 × PrefixHolder0 :=
  let nlen := p.plen - breakIdx
  ({ p with plen := p.plen - nlen },
   { buf := p.buf, off := p.off + breakIdx, plen := nlen })

end PrefixHolder0

/-! ## Facts about the matching loop -/

@[simp] theorem matchLen_nil_left (k : List Atom) : matchLen [] k = 0 := by
  cases k <;> rfl

@[simp] theorem matchLen_nil_right (l : List Atom) : matchLen l [] = 0 := by
  cases l <;> rfl

theorem matchLen_cons (a b : Atom) (l k : List Atom) :
    matchLen (a :: l) (b :: k) = if a = b then matchLen l k + 1 else 0 := rfl

theorem matchLen_le_left (l k : List Atom) : matchLen l k ≤ l.length := by
  induction l generalizing k with
  | nil => simp
  | cons a l ih =>
      cases k with
      | nil => simp
      | cons b k =>
          rw [matchLen_cons]
          by_cases h : a = b
          · simpa [h] using ih k
          · simp [h]

theorem matchLen_le_right (l k : List Atom) : matchLen l k ≤ k.length := by
  induction l generalizing k with
  | nil => simp
  | cons a l ih =>
      cases k with
      | nil => simp
      | cons b k =>
          rw [matchLen_cons]
          by_cases h : a = b
          · simpa [h] using ih k
          · simp [h]

theorem matchLen_take (l k : List Atom) :
    l.take (matchLen l k) = k.take (matchLen l k) := by
  induction l generalizing k with
  | nil => simp
  | cons a l ih =>
      cases k with
      | nil => simp
      | cons b k =>
          rw [matchLen_cons]
          by_cases h : a = b
          · simp [h, ih k]
          · simp [h]

/-- The loop stops with the label consumed exactly when the label is an
initial segment of the input. -/
theorem matchLen_eq_left_iff (l k : List Atom) :
    matchLen l k = l.length ↔ k.take l.length = l := by
  induction l generalizing k with
  | nil => simp
  | cons a l ih =>
      cases k with
      | nil =>
          simp
      | cons b k =>
          rw [matchLen_cons]
          simp only [List.length_cons, List.take_succ_cons]
          by_cases h : a = b
          · rw [if_pos h]
            constructor
            · intro he
              rw [(ih k).mp (by omega), h]
            · intro he
              injection he with _h1 h2
              rw [(ih k).mpr h2]
          · rw [if_neg h]
            constructor
            · intro he
              omega
            · intro he
              injection he with h1 _h2
              exact absurd h1.symm h

/-- When both sides stop early, the atoms at the stopping point differ. -/
theorem matchLen_stop_ne (l k : List Atom)
    (hl : matchLen l k < l.length) (hk : matchLen l k < k.length) :
    l.getD (matchLen l k) 0 ≠ k.getD (matchLen l k) 0 := by
  induction l generalizing k with
  | nil => simp at hl
  | cons a l ih =>
      cases k with
      | nil => simp at hk
      | cons b k =>
          rw [matchLen_cons] at hl hk ⊢
          by_cases h : a = b
          · rw [if_pos h] at hl hk ⊢
            simp only [List.length_cons] at hl hk
            simpa [List.getD_cons_succ] using ih k (by omega) (by omega)
          · rw [if_neg h]
            simpa [List.getD_cons_zero] using h

/-! ## Bit arithmetic: the lowest set bit and the adaptive table size -/

/-- Every positive number is `2^(t+1) * q + 2^t` for unique `t, q`
(only existence is needed). -/
theorem two_factor_canonical (v : Nat) (hv : v ≠ 0) :
    ∃ t q, v = 2 ^ (t + 1) * q + 2 ^ t := by
  induction v using Nat.strong_induction_on with
  | _ v ih =>
      rcases Nat.even_or_odd v with he | ho
      · obtain ⟨w, hw⟩ := he
        have hw2 : v = 2 * w := by omega
        have hwne : w ≠ 0 := by
          rintro rfl
          omega
        have hwlt : w < v := by omega
        obtain ⟨t, q, hq⟩ := ih w hwlt hwne
        exact ⟨t + 1, q, by rw [hw2, hq]; ring⟩
      · obtain ⟨q, hq⟩ := ho
        exact ⟨0, q, by omega⟩

theorem canonical_mod (t q : Nat) : (2 ^ (t + 1) * q + 2 ^ t) % 2 ^ (t + 1) = 2 ^ t := by
  rw [Nat.mul_add_mod]
  exact Nat.mod_eq_of_lt (Nat.pow_lt_pow_right one_lt_two (Nat.lt_succ_self t))

theorem canonical_xor_pred (t q : Nat) :
    (2 ^ (t + 1) * q + 2 ^ t) ^^^ (2 ^ (t + 1) * q + 2 ^ t - 1) = 2 ^ (t + 1) - 1 := by
  have h1 : (1 : Nat) ≤ 2 ^ t := Nat.one_le_two_pow
  have hlt : (2 : Nat) ^ t < 2 ^ (t + 1) :=
    Nat.pow_lt_pow_right one_lt_two (Nat.lt_succ_self t)
  have hpred : 2 ^ (t + 1) * q + 2 ^ t - 1 = 2 ^ (t + 1) * q + (2 ^ t - 1) := by omega
  apply Nat.eq_of_testBit_eq
  intro i
  rw [Nat.testBit_xor, hpred,
    Nat.testBit_mul_pow_two_add q hlt i,
    Nat.testBit_mul_pow_two_add q (by omega : (2 : Nat) ^ t - 1 < 2 ^ (t + 1)) i,
    Nat.testBit_two_pow_sub_one]
  by_cases hi : i < t + 1
  · simp only [if_pos hi]
    rcases Nat.lt_or_ge i t with hit | hit
    · rw [Nat.testBit_two_pow_of_ne (by omega), Nat.testBit_two_pow_sub_one]
      simp [hit, hi]
    · have : i = t := by omega
      subst this
      rw [Nat.testBit_two_pow_self, Nat.testBit_two_pow_sub_one]
      simp [hi]
  · simp [hi]

/-- On `Nat`, `v & -v` (the unsigned two's-complement idiom for the lowest
set bit) evaluated on a canonical `2^(t+1) q + 2^t` gives `2^t`. -/
theorem lowbit_canonical (t q : Nat) :
    (2 ^ (t + 1) * q + 2 ^ t) &&&
      ((2 ^ (t + 1) * q + 2 ^ t) ^^^ (2 ^ (t + 1) * q + 2 ^ t - 1)) = 2 ^ t := by
  rw [canonical_xor_pred, Nat.and_pow_two_sub_one_eq_mod, canonical_mod]

theorem xor_mod_two_pow (a b s : Nat) :
    (a ^^^ b) % 2 ^ s = a % 2 ^ s ^^^ b % 2 ^ s := by
  apply Nat.eq_of_testBit_eq
  intro i
  simp only [Nat.testBit_mod_two_pow, Nat.testBit_xor]
  by_cases hi : i < s <;> simp [hi]

theorem eq_of_xor_eq_zero {a b : Nat} (h : a ^^^ b = 0) : a = b := by
  apply Nat.eq_of_testBit_eq
  intro i
  have := congrArg (fun x => Nat.testBit x i) h
  simpa using this

/-- The properties of `least_uncolliding_size a b` for `a ≠ b`: it is a power
of two `2^(t+1)`; masking with it separates `a` and `b`; and any power-of-two
modulus under which `a` and `b` collide is at most `2^t` (so the new table is
strictly larger and a multiple of the old size). -/
theorem least_uncolliding_spec {a b : Atom} (hab : a ≠ b) :
    ∃ t, least_uncolliding_size a b = 2 ^ (t + 1) ∧
      a % 2 ^ (t + 1) ≠ b % 2 ^ (t + 1) ∧
      ∀ s, a % 2 ^ s = b % 2 ^ s → s ≤ t := by
  have hv : a ^^^ b ≠ 0 := fun h => hab (eq_of_xor_eq_zero h)
  obtain ⟨t, q, hc⟩ := two_factor_canonical (a ^^^ b) hv
  refine ⟨t, ?_, ?_, ?_⟩
  · show ((a ^^^ b) &&& ((a ^^^ b) ^^^ ((a ^^^ b) - 1))) <<< 1 = 2 ^ (t + 1)
    rw [hc, lowbit_canonical, Nat.shiftLeft_eq, pow_one, pow_succ]
  · intro hmod
    have h0 : (a ^^^ b) % 2 ^ (t + 1) = 0 := by
      rw [xor_mod_two_pow, hmod, Nat.xor_self]
    have h1 : (a ^^^ b) % 2 ^ (t + 1) = 2 ^ t := by rw [hc, canonical_mod]
    rw [h0] at h1
    exact (Nat.two_pow_pos t).ne' h1.symm
  · intro s hmod
    by_contra hst
    have h0 : (a ^^^ b) % 2 ^ s = 0 := by
      rw [xor_mod_two_pow, hmod, Nat.xor_self]
    have hdvd : 2 ^ (t + 1) ∣ a ^^^ b :=
      dvd_trans (pow_dvd_pow 2 (by omega : t + 1 ≤ s)) (Nat.dvd_of_mod_eq_zero h0)
    have h1 : (a ^^^ b) % 2 ^ (t + 1) = 0 := Nat.mod_eq_zero_of_dvd hdvd
    have h2 : (a ^^^ b) % 2 ^ (t + 1) = 2 ^ t := by rw [hc, canonical_mod]
    rw [h1] at h2
    exact (Nat.two_pow_pos t).ne' h2.symm

theorem least_uncolliding_comm (a b : Atom) :
    least_uncolliding_size a b = least_uncolliding_size b a := by
  unfold least_uncolliding_size
  rw [Nat.xor_comm]

/-- Companion to `least_uncolliding_spec`: below the splitting bit the two
atoms agree modulo every smaller power of two. -/
theorem least_uncolliding_agree {a b : Atom} (hab : a ≠ b) {t : Nat}
    (hluc : least_uncolliding_size a b = 2 ^ (t + 1)) :
    ∀ s ≤ t, a % 2 ^ s = b % 2 ^ s := by
  intro s hst
  have hv : a ^^^ b ≠ 0 := fun h => hab (eq_of_xor_eq_zero h)
  obtain ⟨t', q, hc⟩ := two_factor_canonical (a ^^^ b) hv
  have hluc' : least_uncolliding_size a b = 2 ^ (t' + 1) := by
    show ((a ^^^ b) &&& ((a ^^^ b) ^^^ ((a ^^^ b) - 1))) <<< 1 = 2 ^ (t' + 1)
    rw [hc, lowbit_canonical, Nat.shiftLeft_eq, pow_one, pow_succ]
  have htt : t = t' := by
    have := hluc ▸ hluc'
    exact Nat.succ_injective (Nat.pow_right_injective (le_refl 2) this)
  subst htt
  have hdvd : 2 ^ s ∣ a ^^^ b := by
    refine dvd_trans (pow_dvd_pow 2 hst) ⟨2 * q + 1, ?_⟩
    rw [hc]
    ring
  have h0 : (a ^^^ b) % 2 ^ s = 0 := Nat.mod_eq_zero_of_dvd hdvd
  rw [xor_mod_two_pow] at h0
  exact eq_of_xor_eq_zero h0

/-! ## The child-table invariant (I1, I2, I5 and the size discipline) -/

/-- Slot consistency: every live slot holds a child with a non-empty label
(I2) stored at the slot its first atom hashes to; this forces I1 and I5. -/
def slotOK (cs : List (Option (Node W))) : Prop :=
  ∀ i c, cs.getD i none = some c →
    c.label ≠ [] ∧ atom_hash c.kfirst (cs.length - 1) = i

/-- The table size is zero or a power of two. -/
def tblSized (cs : List (Option (Node W))) : Prop :=
  cs.length = 0 ∨ ∃ k, cs.length = 2 ^ k

/-- The live children, in slot order. -/
def liveList (cs : List (Option (Node W))) : List (Node W) := cs.filterMap id

/-- The size discipline of reachable tables: a table with no live child has
at most 2 slots (a leaf has 0 and a fresh split node has `hint ∈ {1, 2}`);
with one live child it has 1 or 2 slots; with exactly two live children its
size is exactly `least_uncolliding_size` of their first atoms. -/
def sizeRule (cs : List (Option (Node W))) : Prop :=
  ((liveList cs).length = 0 → cs.length ≤ 2) ∧
  ((liveList cs).length = 1 → cs.length = 1 ∨ cs.length = 2) ∧
  (∀ c d, (liveList cs).length = 2 → some c ∈ cs → some d ∈ cs →
    c.kfirst ≠ d.kfirst → cs.length = least_uncolliding_size c.kfirst d.kfirst)

/-- The full table invariant. -/
def TblInv (cs : List (Option (Node W))) : Prop :=
  slotOK cs ∧ tblSized cs ∧ sizeRule cs

theorem mem_iff_getD {cs : List (Option (Node W))} {c : Node W} :
    some c ∈ cs ↔ ∃ i, cs.getD i none = some c := by
  constructor
  · intro h
    obtain ⟨i, hi, he⟩ := List.mem_iff_getElem.mp h
    refine ⟨i, ?_⟩
    rw [List.getD_eq_getElem?_getD, List.getElem?_eq_getElem hi, he]
    rfl
  · rintro ⟨i, hi⟩
    have hlt : i < cs.length := by
      by_contra hge
      rw [List.getD_eq_getElem?_getD, List.getElem?_eq_none (by omega)] at hi
      simp at hi
    rw [List.getD_eq_getElem?_getD, List.getElem?_eq_getElem hlt] at hi
    simp only [Option.getD_some] at hi
    have := List.getElem_mem hlt
    rw [hi] at this
    exact this

theorem mem_liveList {cs : List (Option (Node W))} {c : Node W} :
    c ∈ liveList cs ↔ some c ∈ cs := by
  simp [liveList, List.mem_filterMap]

/-- Under slot consistency, a node value occupies at most one slot. -/
theorem slotOK_posInj {cs : List (Option (Node W))} (hs : slotOK cs) :
    ∀ i j c, cs.getD i none = some c → cs.getD j none = some c → i = j := by
  intro i j c h1 h2
  rw [← (hs i c h1).2, ← (hs j c h2).2]

/-- Under slot consistency, distinct live children have distinct first atoms
(invariant I1). -/
theorem slotOK_kfirst_inj {cs : List (Option (Node W))} (hs : slotOK cs)
    {c c' : Node W} (h1 : some c ∈ cs) (h2 : some c' ∈ cs)
    (hk : c.kfirst = c'.kfirst) : c = c' := by
  obtain ⟨i, hi⟩ := mem_iff_getD.mp h1
  obtain ⟨j, hj⟩ := mem_iff_getD.mp h2
  have hij : i = j := by
    rw [← (hs i c hi).2, ← (hs j c' hj).2, hk]
  rw [hij, hj] at hi
  exact (Option.some_inj.mp hi).symm

theorem liveList_nodup_of_posInj {cs : List (Option (Node W))}
    (h : ∀ i j c, cs.getD i none = some c → cs.getD j none = some c → i = j) :
    (liveList cs).Nodup := by
  induction cs with
  | nil => simp [liveList]
  | cons hd tl ih =>
      have htl : ∀ i j c, tl.getD i none = some c → tl.getD j none = some c → i = j := by
        intro i j c h1 h2
        have := h (i + 1) (j + 1) c (by simpa using h1) (by simpa using h2)
        omega
      cases hd with
      | none =>
          simpa [liveList] using ih htl
      | some c =>
          have hnotmem : some c ∉ tl := by
            intro hmem
            obtain ⟨i, hi⟩ := mem_iff_getD.mp hmem
            have := h 0 (i + 1) c (by simp) (by simpa using hi)
            omega
          simpa [liveList] using ⟨hnotmem, ih htl⟩

theorem liveList_nodup {cs : List (Option (Node W))} (hs : slotOK cs) :
    (liveList cs).Nodup :=
  liveList_nodup_of_posInj (slotOK_posInj hs)

theorem length_eq_of_nodup_mem_iff {l1 l2 : List (Node W)}
    (h1 : l1.Nodup) (h2 : l2.Nodup) (h : ∀ c, c ∈ l1 ↔ c ∈ l2) :
    l1.length = l2.length :=
  ((List.perm_ext_iff_of_nodup h1 h2).mpr h).length_eq

theorem getD_set_self {α : Type} {l : List α} {i : Nat} (h : i < l.length)
    (v : α) (d : α) : (l.set i v).getD i d = v := by
  rw [List.getD_eq_getElem?_getD, List.getElem?_set_self h]
  rfl

theorem getD_set_ne {α : Type} {l : List α} {i j : Nat} (h : i ≠ j)
    (v : α) (d : α) : (l.set i v).getD j d = l.getD j d := by
  rw [List.getD_eq_getElem?_getD, List.getElem?_set_ne h,
    ← List.getD_eq_getElem?_getD]

/-- Setting a previously null slot adds one live child. -/
theorem liveList_length_set_some {cs : List (Option (Node W))} {i : Nat}
    (hi : i < cs.length) (hnone : cs.getD i none = none) (e : Node W) :
    (liveList (cs.set i (some e))).length = (liveList cs).length + 1 := by
  induction cs generalizing i with
  | nil => simp at hi
  | cons hd tl ih =>
      cases i with
      | zero =>
          have : hd = none := by simpa using hnone
          subst this
          simp [liveList]
      | succ j =>
          have hj : j < tl.length := by simpa using hi
          have hn : tl.getD j none = none := by simpa using hnone
          cases hd with
          | none => simpa [liveList] using ih hj hn
          | some c => simpa [liveList] using ih hj hn

/-- The rehash loop of `resize`, as a named function: place every live child
of `l` into `nd` at its new hash (later writes win). -/
def placeAll (ns : Nat) (nd l : List (Option (Node W))) : List (Option (Node W)) :=
  l.foldl
    (fun nd c =>
      match c with
      | none => nd
      | some e => nd.set (atom_hash e.kfirst (ns - 1)) (some e))
    nd

@[simp] theorem placeAll_nil (ns : Nat) (nd : List (Option (Node W))) :
    placeAll ns nd [] = nd := rfl

@[simp] theorem placeAll_cons_none (ns : Nat) (nd l : List (Option (Node W))) :
    placeAll ns nd (none :: l) = placeAll ns nd l := rfl

@[simp] theorem placeAll_cons_some (ns : Nat) (nd l : List (Option (Node W)))
    (e : Node W) :
    placeAll ns nd (some e :: l) =
      placeAll ns (nd.set (atom_hash e.kfirst (ns - 1)) (some e)) l := rfl

theorem resize_eq_placeAll {cs : List (Option (Node W))} {ns : Nat}
    (h : cs.length < ns) :
    resize cs ns = placeAll ns (List.replicate ns none) cs := by
  unfold resize placeAll
  rw [if_pos h]

/-- The behaviour of the rehash loop when the new hash is injective on the
live children: length preserved, every entry of the result is a correctly
hashed child of `full`, every processed child is present at its hash, and
pre-placed entries persist. -/
theorem placeAll_spec (ns : Nat) (full : List (Option (Node W)))
    (hinj : ∀ c c', some c ∈ full → some c' ∈ full →
        atom_hash c.kfirst (ns - 1) = atom_hash c'.kfirst (ns - 1) → c = c')
    (hbound : ∀ c, some c ∈ full → atom_hash c.kfirst (ns - 1) < ns) :
    ∀ (l : List (Option (Node W))), (∀ c, some c ∈ l → some c ∈ full) →
    ∀ (nd : List (Option (Node W))), nd.length = ns →
      (∀ i c, nd.getD i none = some c →
        some c ∈ full ∧ atom_hash c.kfirst (ns - 1) = i) →
      (placeAll ns nd l).length = ns ∧
      (∀ i c, (placeAll ns nd l).getD i none = some c →
          some c ∈ full ∧ atom_hash c.kfirst (ns - 1) = i ∧
          (some c ∈ l ∨ nd.getD i none = some c)) ∧
      (∀ c, some c ∈ l →
          (placeAll ns nd l).getD (atom_hash c.kfirst (ns - 1)) none = some c) ∧
      (∀ i c, nd.getD i none = some c → (placeAll ns nd l).getD i none = some c) := by
  intro l
  induction l with
  | nil =>
      intro _hsub nd hlen hacc
      refine ⟨hlen, ?_, ?_, ?_⟩
      · intro i c h
        exact ⟨(hacc i c h).1, (hacc i c h).2, Or.inr h⟩
      · intro c h
        simp at h
      · intro i c h
        simpa using h
  | cons hd l ih =>
      intro hsub nd hlen hacc
      cases hd with
      | none =>
          have hsub' : ∀ c, some c ∈ l → some c ∈ full := fun c h =>
            hsub c (List.mem_cons_of_mem _ h)
          obtain ⟨c1, c2, c3, c4⟩ := ih hsub' nd hlen hacc
          refine ⟨c1, ?_, ?_, c4⟩
          · intro i c h
            obtain ⟨m1, m2, m3⟩ := c2 i c h
            exact ⟨m1, m2, m3.imp (List.mem_cons_of_mem _) id⟩
          · intro c h
            rcases List.mem_cons.mp h with h' | h'
            · exact absurd h' (by simp)
            · exact c3 c h'
      | some e =>
          have hef : some e ∈ full := hsub e (List.mem_cons_self _ _)
          have helt : atom_hash e.kfirst (ns - 1) < ns := hbound e hef
          have helt' : atom_hash e.kfirst (ns - 1) < nd.length := by omega
          have hsub' : ∀ c, some c ∈ l → some c ∈ full := fun c h =>
            hsub c (List.mem_cons_of_mem _ h)
          have hlen' : (nd.set (atom_hash e.kfirst (ns - 1)) (some e)).length = ns := by
            simpa using hlen
          have hacc' : ∀ i c,
              (nd.set (atom_hash e.kfirst (ns - 1)) (some e)).getD i none = some c →
              some c ∈ full ∧ atom_hash c.kfirst (ns - 1) = i := by
            intro i c h
            by_cases hie : atom_hash e.kfirst (ns - 1) = i
            · subst hie
              rw [getD_set_self helt'] at h
              cases h
              exact ⟨hef, rfl⟩
            · rw [getD_set_ne hie] at h
              exact hacc i c h
          obtain ⟨c1, c2, c3, c4⟩ := ih hsub' _ hlen' hacc'
          rw [placeAll_cons_some]
          refine ⟨c1, ?_, ?_, ?_⟩
          · intro i c h
            obtain ⟨m1, m2, m3⟩ := c2 i c h
            refine ⟨m1, m2, ?_⟩
            rcases m3 with m3 | m3
            · exact Or.inl (List.mem_cons_of_mem _ m3)
            · by_cases hie : atom_hash e.kfirst (ns - 1) = i
              · subst hie
                rw [getD_set_self helt'] at m3
                cases m3
                exact Or.inl (List.mem_cons_self _ _)
              · rw [getD_set_ne hie] at m3
                exact Or.inr m3
          · intro c h
            rcases List.mem_cons.mp h with h' | h'
            · cases h'
              exact c4 _ _ (getD_set_self helt' _ _)
            · exact c3 c h'
          · intro i c h
            by_cases hie : atom_hash e.kfirst (ns - 1) = i
            · subst hie
              have hc : c = e := by
                obtain ⟨hm, hh⟩ := hacc _ c h
                exact hinj c e hm hef hh
              subst hc
              exact c4 _ _ (getD_set_self helt' _ _)
            · exact c4 i c (by rw [getD_set_ne hie]; exact h)

/-- The behaviour of `resize` on a growing, injectively rehashed table. -/
theorem resize_spec {cs : List (Option (Node W))} {ns : Nat}
    (hgrow : cs.length < ns)
    (hinj : ∀ c c', some c ∈ cs → some c' ∈ cs →
        atom_hash c.kfirst (ns - 1) = atom_hash c'.kfirst (ns - 1) → c = c')
    (hbound : ∀ c, some c ∈ cs → atom_hash c.kfirst (ns - 1) < ns) :
    (resize cs ns).length = ns ∧
    (∀ i c, (resize cs ns).getD i none = some c →
        some c ∈ cs ∧ atom_hash c.kfirst (ns - 1) = i) ∧
    (∀ c, some c ∈ cs →
        (resize cs ns).getD (atom_hash c.kfirst (ns - 1)) none = some c) ∧
    (∀ c, some c ∈ resize cs ns ↔ some c ∈ cs) := by
  rw [resize_eq_placeAll hgrow]
  have hrep : ∀ i c, (List.replicate ns (none : Option (Node W))).getD i none = some c →
      some c ∈ cs ∧ atom_hash c.kfirst (ns - 1) = i := by
    intro i c h
    rw [List.getD_eq_getElem?_getD, List.getElem?_replicate] at h
    by_cases hi : i < ns <;> simp [hi] at h
  obtain ⟨c1, c2, c3, c4⟩ := placeAll_spec ns cs hinj hbound cs (fun _ h => h)
    (List.replicate ns none) (by simp) hrep
  refine ⟨c1, ?_, c3, ?_⟩
  · intro i c h
    obtain ⟨m1, m2, _⟩ := c2 i c h
    exact ⟨m1, m2⟩
  · intro c
    constructor
    · intro h
      obtain ⟨i, hi⟩ := mem_iff_getD.mp h
      exact (c2 i c hi).1
    · intro h
      exact mem_iff_getD.mpr ⟨_, c3 c h⟩

theorem atom_hash_pow2 (x k : Nat) : atom_hash x (2 ^ k - 1) = x % 2 ^ k :=
  Nat.and_pow_two_sub_one_eq_mod x k

theorem atom_hash_lt_pow2 (x k : Nat) : atom_hash x (2 ^ k - 1) < 2 ^ k := by
  rw [atom_hash_pow2]
  exact Nat.mod_lt _ (Nat.two_pow_pos k)

theorem getD_replicate_none {n i : Nat} :
    (List.replicate n (none : Option (Node W))).getD i none = none := by
  rw [List.getD_eq_getElem?_getD, List.getElem?_replicate]
  by_cases hi : i < n <;> simp [hi]

theorem liveList_replicate_none (n : Nat) :
    liveList (List.replicate n (none : Option (Node W))) = [] := by
  induction n with
  | zero => rfl
  | succ n ih => simpa [liveList, List.replicate_succ] using ih

/-- The position of a live child is the hash of its first atom. -/
theorem getD_at_hash {cs : List (Option (Node W))} (hs : slotOK cs)
    {c : Node W} (h : some c ∈ cs) :
    cs.getD (atom_hash c.kfirst (cs.length - 1)) none = some c := by
  obtain ⟨i, hi⟩ := mem_iff_getD.mp h
  rw [(hs i c hi).2]
  exact hi

theorem mem_set_some_iff {cs : List (Option (Node W))} {i : Nat} {e c : Node W}
    (hi : i < cs.length) (hnone : cs.getD i none = none) :
    some c ∈ cs.set i (some e) ↔ c = e ∨ some c ∈ cs := by
  constructor
  · intro h
    rcases List.mem_or_eq_of_mem_set h with h' | h'
    · exact Or.inr h'
    · exact Or.inl (Option.some_inj.mp h')
  · rintro (rfl | h)
    · exact mem_iff_getD.mpr ⟨i, getD_set_self hi _ _⟩
    · obtain ⟨j, hj⟩ := mem_iff_getD.mp h
      have hij : i ≠ j := by
        rintro rfl
        rw [hnone] at hj
        cases hj
      exact mem_iff_getD.mpr ⟨j, by rw [getD_set_ne hij]; exact hj⟩

theorem mem_of_liveList_singleton {cs : List (Option (Node W))} {m c : Node W}
    (hm : liveList cs = [m]) (hc : some c ∈ cs) : c = m := by
  have := mem_liveList.mpr hc
  rw [hm] at this
  simpa using this

/-- Models the effect of `TrieNode::put` on a well-formed table holding no
child with the new edge's first atom: the invariant is preserved, the edge is
added (no child is lost), and the live count goes up by one. -/
theorem put_spec {cs : List (Option (Node W))} {edge : Node W}
    (hinv : TblInv cs) (hlbl : edge.label ≠ [])
    (hnew : ∀ c, some c ∈ cs → c.kfirst ≠ edge.kfirst) :
    TblInv (put cs edge) ∧
    (∀ c, some c ∈ put cs edge ↔ c = edge ∨ some c ∈ cs) ∧
    (liveList (put cs edge)).length = (liveList cs).length + 1 := by
  obtain ⟨hs, ht, hr⟩ := hinv
  by_cases hA : cs.length = 0
  · -- size == 0: resize(2) and store at `x & 1`
    have h0 : cs = [] := List.length_eq_zero.mp hA
    subst h0
    have hput : put ([] : List (Option (Node W))) edge
        = (List.replicate 2 none).set (atom_hash edge.kfirst 1) (some edge) := by
      simp only [put]
      have hif : (if ([] : List (Option (Node W))).length = 0
          then resize ([] : List (Option (Node W))) 2 else []) = List.replicate 2 none := by
        rfl
      rw [hif, List.length_replicate]
      have hnone2 : (List.replicate 2 (none : Option (Node W))).getD
          (atom_hash edge.kfirst (2 - 1)) none = none := getD_replicate_none
      rw [hnone2]
    have hhlt : atom_hash edge.kfirst 1 < 2 := by
      have := atom_hash_lt_pow2 edge.kfirst 1
      simpa using this
    have hlen2 : (List.replicate 2 (none : Option (Node W))).length = 2 := by simp
    have hmem : ∀ c, some c ∈ put ([] : List (Option (Node W))) edge ↔
        c = edge ∨ some c ∈ ([] : List (Option (Node W))) := by
      intro c
      rw [hput, mem_set_some_iff (by simpa using hhlt) getD_replicate_none]
      simp
    refine ⟨⟨?_, ?_, ?_⟩, hmem, ?_⟩
    · intro i c hc
      rw [hput] at hc ⊢
      have hlen : ((List.replicate 2 (none : Option (Node W))).set
          (atom_hash edge.kfirst 1) (some edge)).length = 2 := by simp
      rw [hlen]
      by_cases hie : atom_hash edge.kfirst 1 = i
      · subst hie
        rw [getD_set_self (by simpa using hhlt)] at hc
        cases hc
        exact ⟨hlbl, rfl⟩
      · rw [getD_set_ne hie, getD_replicate_none] at hc
        cases hc
    · rw [hput]
      right
      refine ⟨1, ?_⟩
      simp
    · have hc1 : (liveList (put ([] : List (Option (Node W))) edge)).length = 1 := by
        rw [hput, liveList_length_set_some (by simpa using hhlt) getD_replicate_none,
          liveList_replicate_none]
        rfl
      refine ⟨?_, ?_, ?_⟩
      · intro h
        rw [hc1] at h
        cases h
      · intro _
        rw [hput]
        right
        simp
      · intro c d h
        rw [hc1] at h
        cases h
    · rw [hput, liveList_length_set_some (by simpa using hhlt) getD_replicate_none,
        liveList_replicate_none]
      rfl
  · -- size != 0
    obtain ⟨k, hk⟩ := ht.resolve_left hA
    have hmask : cs.length - 1 = 2 ^ k - 1 := by rw [hk]
    have hhlt : atom_hash edge.kfirst (cs.length - 1) < cs.length := by
      rw [hmask, hk]
      exact atom_hash_lt_pow2 _ _
    rcases hprobe : cs.getD (atom_hash edge.kfirst (cs.length - 1)) none with _ | m
    · -- empty slot: store in place
      have hput : put cs edge
          = cs.set (atom_hash edge.kfirst (cs.length - 1)) (some edge) := by
        simp only [put]
        rw [if_neg hA, hprobe]
      have hmem : ∀ c, some c ∈ put cs edge ↔ c = edge ∨ some c ∈ cs := by
        intro c
        rw [hput, mem_set_some_iff hhlt hprobe]
      have hcount : (liveList (put cs edge)).length = (liveList cs).length + 1 := by
        rw [hput, liveList_length_set_some hhlt hprobe]
      refine ⟨⟨?_, ?_, ?_⟩, hmem, hcount⟩
      · intro i c hc
        rw [hput] at hc ⊢
        simp only [List.length_set]
        by_cases hie : atom_hash edge.kfirst (cs.length - 1) = i
        · subst hie
          rw [getD_set_self hhlt] at hc
          cases hc
          exact ⟨hlbl, rfl⟩
        · rw [getD_set_ne hie] at hc
          exact hs i c hc
      · rw [hput]
        right
        exact ⟨k, by simpa using hk⟩
      · refine ⟨?_, ?_, ?_⟩
        · intro h
          rw [hcount] at h
          cases h
        · intro h
          rw [hcount] at h
          have h0 : (liveList cs).length = 0 := by omega
          have hle2 : cs.length ≤ 2 := hr.1 h0
          have hge1 : 1 ≤ cs.length := by omega
          rw [hput]
          simp only [List.length_set]
          omega
        · intro c d h hcmem hdmem hkne
          rw [hcount] at h
          have h1 : (liveList cs).length = 1 := by omega
          obtain ⟨m, hm⟩ := List.length_eq_one.mp h1
          -- table held exactly `m`; the new pair is {edge, m}
          have hlen12 : cs.length = 1 ∨ cs.length = 2 := hr.2.1 h1
          have hmmem : some m ∈ cs := mem_liveList.mp (by rw [hm]; simp)
          have hmne : m.kfirst % 2 ^ k ≠ edge.kfirst % 2 ^ k := by
            intro heq
            have hpos := getD_at_hash hs hmmem
            rw [hmask, atom_hash_pow2, heq, ← atom_hash_pow2, ← hmask, hprobe] at hpos
            cases hpos
          have hklen : cs.length = 2 := by
            rcases hlen12 with h1' | h2'
            · exfalso
              have h20 : (2 : Nat) ^ k = 2 ^ 0 := by
                rw [← hk, h1', pow_zero]
              have hk0 : k = 0 := Nat.pow_right_injective (le_refl 2) h20
              apply hmne
              rw [hk0]
              simp [Nat.mod_one]
            · exact h2'
          have hk1 : k = 1 := by
            have h21 : (2 : Nat) ^ k = 2 ^ 1 := by
              rw [← hk, hklen, pow_one]
            exact Nat.pow_right_injective (le_refl 2) h21
          -- the pair {c, d} is {edge, m} in some order
          have hpair : ∀ x, some x ∈ put cs edge → x = edge ∨ x = m := by
            intro x hx
            rcases (hmem x).mp hx with hx' | hx'
            · exact Or.inl hx'
            · exact Or.inr (mem_of_liveList_singleton hm hx')
          have hluc2 : least_uncolliding_size edge.kfirst m.kfirst = 2 := by
            obtain ⟨t, hluc, _hsep, _hcoll⟩ :=
              @least_uncolliding_spec edge.kfirst m.kfirst
                (fun h => (hnew m hmmem) h.symm)
            rcases Nat.eq_zero_or_pos t with ht0 | htpos
            · rw [ht0] at hluc
              simpa using hluc
            · exfalso
              apply hmne
              have := @least_uncolliding_agree edge.kfirst m.kfirst
                (fun h => (hnew m hmmem) h.symm) _ hluc 1 (by omega)
              rw [hk1]
              exact this.symm
          have hplen : (put cs edge).length = 2 := by
            rw [hput]
            simpa using hklen
          rcases hpair c hcmem with rfl | rfl <;> rcases hpair d hdmem with rfl | rfl
          · exact absurd rfl hkne
          · rw [hplen, hluc2]
          · rw [hplen, least_uncolliding_comm, hluc2]
          · exact absurd rfl hkne
    · -- collision with `m`: grow to the least uncolliding size
      have hmmem : some m ∈ cs := mem_iff_getD.mpr ⟨_, hprobe⟩
      have hmke : m.kfirst ≠ edge.kfirst := hnew m hmmem
      have hcoll_old : m.kfirst % 2 ^ k = edge.kfirst % 2 ^ k := by
        have h2 := (hs _ m hprobe).2
        rw [hmask, atom_hash_pow2, atom_hash_pow2] at h2
        exact h2
      obtain ⟨t, hluc, hsep, hcollb⟩ :=
        @least_uncolliding_spec edge.kfirst m.kfirst
          (fun h => hmke h.symm)
      have hkt : k ≤ t := hcollb k hcoll_old.symm
      have hgrow : cs.length < least_uncolliding_size edge.kfirst m.kfirst := by
        rw [hluc, hk]
        exact Nat.pow_lt_pow_right one_lt_two (by omega)
      set luc := least_uncolliding_size edge.kfirst m.kfirst with hlucdef
      have hlucmask : luc - 1 = 2 ^ (t + 1) - 1 := by rw [hluc]
      -- positions in the old table pin each child to its old hash
      have holdpos : ∀ c, some c ∈ cs →
          cs.getD (c.kfirst % 2 ^ k) none = some c := by
        intro c hc
        have := getD_at_hash hs hc
        rwa [hmask, atom_hash_pow2] at this
      have hinj : ∀ c c', some c ∈ cs → some c' ∈ cs →
          atom_hash c.kfirst (luc - 1) = atom_hash c'.kfirst (luc - 1) → c = c' := by
        intro c c' hc hc' heq
        rw [hlucmask, atom_hash_pow2, atom_hash_pow2] at heq
        have heqk : c.kfirst % 2 ^ k = c'.kfirst % 2 ^ k := by
          have h1 : c.kfirst % 2 ^ (t + 1) % 2 ^ k = c'.kfirst % 2 ^ (t + 1) % 2 ^ k := by
            rw [heq]
          rwa [Nat.mod_mod_of_dvd _ (pow_dvd_pow 2 (by omega)),
            Nat.mod_mod_of_dvd _ (pow_dvd_pow 2 (by omega))] at h1
        have := holdpos c hc
        rw [heqk, holdpos c' hc'] at this
        exact (Option.some_inj.mp this).symm
      have hbound : ∀ c, some c ∈ cs → atom_hash c.kfirst (luc - 1) < luc := by
        intro c _
        rw [hlucmask, hluc]
        exact atom_hash_lt_pow2 _ _
      obtain ⟨r1, r2, r3, r4⟩ := resize_spec hgrow hinj hbound
      have hRempty : (resize cs luc).getD (atom_hash edge.kfirst (luc - 1)) none
          = none := by
        rcases hR : (resize cs luc).getD (atom_hash edge.kfirst (luc - 1)) none
          with _ | c
        · rfl
        · exfalso
          obtain ⟨hcmem, hchash⟩ := r2 _ c hR
          have hcm : c = m := by
            rw [hlucmask, atom_hash_pow2, atom_hash_pow2] at hchash
            have heqk : c.kfirst % 2 ^ k = edge.kfirst % 2 ^ k := by
              have h1 : c.kfirst % 2 ^ (t + 1) % 2 ^ k
                  = edge.kfirst % 2 ^ (t + 1) % 2 ^ k := by rw [hchash]
              rwa [Nat.mod_mod_of_dvd _ (pow_dvd_pow 2 (by omega)),
                Nat.mod_mod_of_dvd _ (pow_dvd_pow 2 (by omega))] at h1
            have := holdpos c hcmem
            rw [heqk, ← hcoll_old, holdpos m hmmem] at this
            exact (Option.some_inj.mp this).symm
          subst hcm
          rw [hlucmask, atom_hash_pow2, atom_hash_pow2] at hchash
          exact hsep hchash.symm
      have hput : put cs edge = (resize cs luc).set
          (atom_hash edge.kfirst (luc - 1)) (some edge) := by
        simp only [put]
        rw [if_neg hA]
        simp only [hprobe]
        rw [← hlucdef, r1]
      have hhlt2 : atom_hash edge.kfirst (luc - 1) < (resize cs luc).length := by
        rw [r1, hlucmask, hluc]
        exact atom_hash_lt_pow2 _ _
      have hmem : ∀ c, some c ∈ put cs edge ↔ c = edge ∨ some c ∈ cs := by
        intro c
        rw [hput, mem_set_some_iff hhlt2 hRempty, r4]
      have hnodR : (liveList (resize cs luc)).Nodup := by
        apply liveList_nodup
        intro i c hc
        obtain ⟨hcmem, hchash⟩ := r2 i c hc
        exact ⟨(hs _ c (mem_iff_getD.mp hcmem).choose_spec).1, by rw [r1]; exact hchash⟩
      have hcountR : (liveList (resize cs luc)).length = (liveList cs).length := by
        exact length_eq_of_nodup_mem_iff hnodR (liveList_nodup hs)
          (fun c => by rw [mem_liveList, mem_liveList, r4])
      have hcount : (liveList (put cs edge)).length = (liveList cs).length + 1 := by
        rw [hput, liveList_length_set_some hhlt2 hRempty, hcountR]
      refine ⟨⟨?_, ?_, ?_⟩, hmem, hcount⟩
      · intro i c hc
        rw [hput] at hc ⊢
        have hlen : ((resize cs luc).set (atom_hash edge.kfirst (luc - 1))
            (some edge)).length = luc := by simpa using r1
        rw [hlen]
        by_cases hie : atom_hash edge.kfirst (luc - 1) = i
        · subst hie
          rw [getD_set_self hhlt2] at hc
          cases hc
          exact ⟨hlbl, rfl⟩
        · rw [getD_set_ne hie] at hc
          obtain ⟨hcmem, hchash⟩ := r2 i c hc
          obtain ⟨j, hj⟩ := mem_iff_getD.mp hcmem
          exact ⟨(hs j c hj).1, hchash⟩
      · rw [hput]
        right
        exact ⟨t + 1, by rw [List.length_set, r1, hluc]⟩
      · refine ⟨?_, ?_, ?_⟩
        · intro h
          rw [hcount] at h
          cases h
        · intro h
          rw [hcount] at h
          exfalso
          have : 0 < (liveList cs).length :=
            List.length_pos.mpr (fun he => by
              have := mem_liveList.mpr hmmem
              rw [he] at this
              cases this)
          omega
        · intro c d h hcmem hdmem hkne
          rw [hcount] at h
          have h1 : (liveList cs).length = 1 := by omega
          obtain ⟨m0, hm0⟩ := List.length_eq_one.mp h1
          have hmm0 : m = m0 := mem_of_liveList_singleton hm0 hmmem
          subst hmm0
          have hpair : ∀ x, some x ∈ put cs edge → x = edge ∨ x = m := by
            intro x hx
            rcases (hmem x).mp hx with hx' | hx'
            · exact Or.inl hx'
            · exact Or.inr (mem_of_liveList_singleton hm0 hx')
          have hplen : (put cs edge).length = luc := by
            rw [hput]
            simpa using r1
          rcases hpair c hcmem with rfl | rfl <;> rcases hpair d hdmem with rfl | rfl
          · exact absurd rfl hkne
          · rw [hplen]
          · rw [hplen, least_uncolliding_comm]
          · exact absurd rfl hkne

/-! ## `TrieNode::find` under the table invariant -/

theorem tableFind_some_spec {cs : List (Option (Node W))} {x : Atom}
    {i : Nat} {c : Node W} (h : tableFind cs x = some (i, c)) :
    cs.getD i none = some c ∧ c.kfirst = x ∧
      i = atom_hash x (cs.length - 1) := by
  simp only [tableFind] at h
  by_cases h0 : cs.length ≠ 0
  · rw [if_pos h0] at h
    rcases hg : cs.getD (atom_hash x (cs.length - 1)) none with _ | e
    · simp only [hg] at h
      cases h
    · simp only [hg] at h
      by_cases hke : e.kfirst = x
      · rw [if_pos hke] at h
        simp only [Option.some_inj, Prod.mk.injEq] at h
        obtain ⟨h1, h2⟩ := h
        subst h1
        subst h2
        exact ⟨hg, hke, rfl⟩
      · rw [if_neg hke] at h
        cases h
  · rw [if_neg h0] at h
    cases h

/-- Under the invariant, a `find` miss means no child starts with `x`
(the single probe is conclusive). -/
theorem tableFind_none_spec {cs : List (Option (Node W))}
    (hs : slotOK cs) (ht : tblSized cs) {x : Atom}
    (h : tableFind cs x = none) :
    ∀ c, some c ∈ cs → c.kfirst ≠ x := by
  intro c hc hke
  subst hke
  have hx := getD_at_hash hs hc
  simp only [tableFind] at h
  have h0 : cs.length ≠ 0 := by
    intro h0
    rw [List.length_eq_zero.mp h0] at hc
    cases hc
  rw [if_pos h0] at h
  simp only [hx] at h
  simp at h

/-- Under the invariant, a live child starting with `x` is found. -/
theorem tableFind_mem_spec {cs : List (Option (Node W))}
    (hs : slotOK cs) {x : Atom} {c : Node W}
    (hc : some c ∈ cs) (hk : c.kfirst = x) :
    tableFind cs x = some (atom_hash x (cs.length - 1), c) := by
  subst hk
  have hx := getD_at_hash hs hc
  have h0 : cs.length ≠ 0 := by
    intro h0
    rw [List.length_eq_zero.mp h0] at hc
    cases hc
  simp only [tableFind]
  rw [if_pos h0]
  simp only [hx]
  simp

/-- Replacing the occupant of a live slot keeps the live count. -/
theorem liveList_length_set_replace {cs : List (Option (Node W))} {i : Nat}
    {c : Node W} (hi : cs.getD i none = some c) (e : Node W) :
    (liveList (cs.set i (some e))).length = (liveList cs).length := by
  induction cs generalizing i with
  | nil => cases hi
  | cons hd tl ih =>
      cases i with
      | zero =>
          have : hd = some c := by simpa using hi
          subst this
          simp [liveList]
      | succ j =>
          have hj : tl.getD j none = some c := by simpa using hi
          cases hd with
          | none => simpa [liveList] using ih hj
          | some d => simpa [liveList] using ih hj

/-! ## The whole-tree invariant and its preservation by `insert` -/

/-- Whole-tree well-formedness: every node's child table satisfies the
table invariant and all children are recursively well-formed. -/
inductive WFn : Node W → Prop where
  | mk : ∀ (lbl : List Atom) (s : W) (cs : List (Option (Node W))),
      TblInv cs → (∀ c, some c ∈ cs → WFn c) → WFn (Node.mk lbl s cs)

theorem WFn.tbl {n : Node W} (h : WFn n) : TblInv n.children := by
  cases h
  assumption

theorem WFn.child {n : Node W} (h : WFn n) :
    ∀ c, some c ∈ n.children → WFn c := by
  cases h
  assumption

theorem WFn_of_parts {n : Node W} (h1 : TblInv n.children)
    (h2 : ∀ c, some c ∈ n.children → WFn c) : WFn n := by
  cases n
  exact WFn.mk _ _ _ h1 h2

theorem TblInv_nil : TblInv ([] : List (Option (Node W))) := by
  refine ⟨?_, Or.inl rfl, ?_, ?_, ?_⟩
  · intro i c hc
    rw [List.getD_eq_getElem?_getD] at hc
    simp at hc
  · intro _
    simp
  · intro h
    simp [liveList] at h
  · intro c d h
    simp [liveList] at h

theorem WFn_leaf (lbl : List Atom) (s : W) : WFn (Node.mk lbl s []) :=
  WFn.mk _ _ _ TblInv_nil (by intro c hc; cases hc)

theorem TblInv_replicate {hint : Nat} (h : hint = 1 ∨ hint = 2) :
    TblInv (List.replicate hint (none : Option (Node W))) := by
  refine ⟨?_, ?_, ?_, ?_, ?_⟩
  · intro i c hc
    rw [getD_replicate_none] at hc
    cases hc
  · right
    rcases h with rfl | rfl
    · exact ⟨0, by simp⟩
    · exact ⟨1, by simp⟩
  · intro _
    rcases h with rfl | rfl <;> simp
  · intro h1
    rw [liveList_replicate_none] at h1
    cases h1
  · intro c d h2
    rw [liveList_replicate_none] at h2
    cases h2

theorem getD_eq_headD_drop {α : Type} (l : List α) (n : Nat) (d : α) :
    l.getD n d = (l.drop n).headD d := by
  induction l generalizing n with
  | nil => simp
  | cons a l ih =>
      cases n with
      | zero => simp
      | succ m => simpa using ih m

theorem kfirst_eq_of_take_one {l1 l2 : List Atom} (h1 : 1 ≤ l1.length)
    (ht : l1.take 1 = l2.take 1) : l1.headD 0 = l2.headD 0 := by
  cases l1 with
  | nil => simp at h1
  | cons a t1 =>
      cases l2 with
      | nil => simp at ht
      | cons b t2 =>
          simp at ht
          simp [ht]

/-- The effect of `split` on the node: label truncated, fresh value slot,
and the successor (carrying the old label suffix, value and children) as the
single live child. -/
theorem split_WF {n : Node W} (hn : WFn n) {fresh : W} {hint breakIdx : Nat}
    (hhint : hint = 1 ∨ hint = 2)
    (hne : n.label.drop breakIdx ≠ []) :
    WFn (n.split fresh hint breakIdx) ∧
    (n.split fresh hint breakIdx).label = n.label.take breakIdx ∧
    (n.split fresh hint breakIdx).slot = fresh ∧
    (∀ c, some c ∈ (n.split fresh hint breakIdx).children ↔
      c = Node.mk (n.label.drop breakIdx) n.slot n.children) ∧
    (liveList (n.split fresh hint breakIdx).children).length = 1 := by
  rcases n with ⟨lbl, s, cs⟩
  have hnext : WFn (Node.mk (lbl.drop breakIdx) s cs) :=
    WFn.mk _ _ _ hn.tbl hn.child
  have hlblne : (Node.mk (lbl.drop breakIdx) s cs : Node W).label ≠ [] := hne
  obtain ⟨hinv', hmem', hcount'⟩ :=
    @put_spec W (List.replicate hint none)
      (Node.mk (lbl.drop breakIdx) s cs)
      (TblInv_replicate hhint) hlblne
      (by
        intro c hc
        exact absurd (List.eq_of_mem_replicate hc) (by simp))
  refine ⟨?_, rfl, rfl, ?_, ?_⟩
  · exact WFn.mk _ _ _ hinv' (by
      intro c hc
      rcases (hmem' c).mp hc with rfl | hc'
      · exact hnext
      · exact absurd (List.eq_of_mem_replicate hc') (by simp))
  · intro c
    rw [show (Node.split (Node.mk lbl s cs) fresh hint breakIdx).children
        = put (List.replicate hint none) (Node.mk (lbl.drop breakIdx) s cs) from rfl]
    rw [hmem' c]
    constructor
    · rintro (rfl | hc)
      · rfl
      · exact absurd (List.eq_of_mem_replicate hc) (by simp)
    · rintro rfl
      exact Or.inl rfl
  · rw [show (Node.split (Node.mk lbl s cs) fresh hint breakIdx).children
        = put (List.replicate hint none) (Node.mk (lbl.drop breakIdx) s cs) from rfl]
    rw [hcount', liveList_replicate_none]
    rfl

/-! ## Branch equations for `insertGo` and `generalSearch` -/

section BranchEq

variable {V : Type} (H : Holder W V) (rep : V → V → V) (v : V)
variable (n : Node W) (loff : Nat) (key : List Atom)

theorem insertGo_eq_exact
    (h1 : key.drop (matchLen (n.label.drop loff) key) = [])
    (h2 : (n.label.drop loff).drop (matchLen (n.label.drop loff) key) = []) :
    insertGo H rep v n loff key = (n.withSlot (insert_value H rep n.slot v), false) := by
  rw [insertGo]
  split
  next heq => rw [if_pos h2]
  next x krest heq =>
    rw [h1] at heq
    cases heq

theorem insertGo_eq_endmid
    (h1 : key.drop (matchLen (n.label.drop loff) key) = [])
    (h2 : (n.label.drop loff).drop (matchLen (n.label.drop loff) key) ≠ []) :
    insertGo H rep v n loff key
      = ((n.split H.fresh 1 (loff + matchLen (n.label.drop loff) key)).withSlot
          (H.setv v), true) := by
  rw [insertGo]
  split
  next heq => rw [if_neg h2]
  next x krest heq =>
    rw [h1] at heq
    cases heq

theorem insertGo_eq_splitmid {x : Atom} {krest : List Atom}
    (h1 : key.drop (matchLen (n.label.drop loff) key) = x :: krest)
    (h2 : (n.label.drop loff).drop (matchLen (n.label.drop loff) key) ≠ []) :
    insertGo H rep v n loff key
      = (let n1 := n.split H.fresh 2 (loff + matchLen (n.label.drop loff) key)
         (n1.withChildren (put n1.children (Node.mk (x :: krest) (H.setv v) [])), true)) := by
  rw [insertGo]
  split
  next heq =>
    rw [h1] at heq
    cases heq
  next x' krest' heq =>
    rw [h1] at heq
    injection heq with hx hk
    subst hx
    subst hk
    rw [if_pos h2]

theorem insertGo_eq_nonext {x : Atom} {krest : List Atom}
    (h1 : key.drop (matchLen (n.label.drop loff) key) = x :: krest)
    (h2 : (n.label.drop loff).drop (matchLen (n.label.drop loff) key) = [])
    (h3 : tableFind n.children x = none) :
    insertGo H rep v n loff key
      = (n.withChildren (put n.children (Node.mk (x :: krest) (H.setv v) [])), true) := by
  rw [insertGo]
  split
  next heq =>
    rw [h1] at heq
    cases heq
  next x' krest' heq =>
    rw [h1] at heq
    injection heq with hx hk
    subst hx
    subst hk
    rw [if_neg (by simp [h2]), h3]

theorem insertGo_eq_descend {x : Atom} {krest : List Atom} {i : Nat} {c : Node W}
    (h1 : key.drop (matchLen (n.label.drop loff) key) = x :: krest)
    (h2 : (n.label.drop loff).drop (matchLen (n.label.drop loff) key) = [])
    (h3 : tableFind n.children x = some (i, c)) :
    insertGo H rep v n loff key
      = (n.withChildren (n.children.set i (some (insertGo H rep v c 1 krest).1)),
         (insertGo H rep v c 1 krest).2) := by
  rw [insertGo]
  split
  next heq =>
    rw [h1] at heq
    cases heq
  next x' krest' heq =>
    rw [h1] at heq
    injection heq with hx hk
    subst hx
    subst hk
    rw [if_neg (by simp [h2]), h3]

theorem generalSearch_eq_exact
    (h1 : key.drop (matchLen (n.label.drop loff) key) = [])
    (h2 : (n.label.drop loff).drop (matchLen (n.label.drop loff) key) = []) :
    generalSearch n loff key = ⟨.exactMatch n, [], none, 0⟩ := by
  rw [generalSearch]
  split
  next heq => rw [if_pos h2]
  next x krest heq =>
    rw [h1] at heq
    cases heq

theorem generalSearch_eq_endmid
    (h1 : key.drop (matchLen (n.label.drop loff) key) = [])
    (h2 : (n.label.drop loff).drop (matchLen (n.label.drop loff) key) ≠ []) :
    generalSearch n loff key
      = ⟨.endInTheMiddle n (loff + matchLen (n.label.drop loff) key), [], none, 0⟩ := by
  rw [generalSearch]
  split
  next heq => rw [if_neg h2]
  next x krest heq =>
    rw [h1] at heq
    cases heq

theorem generalSearch_eq_splitmid {x : Atom} {krest : List Atom}
    (h1 : key.drop (matchLen (n.label.drop loff) key) = x :: krest)
    (h2 : (n.label.drop loff).drop (matchLen (n.label.drop loff) key) ≠ []) :
    generalSearch n loff key
      = ⟨.splitInTheMiddle n (loff + matchLen (n.label.drop loff) key) (x :: krest),
          [], none, 0⟩ := by
  rw [generalSearch]
  split
  next heq =>
    rw [h1] at heq
    cases heq
  next x' krest' heq =>
    rw [h1] at heq
    injection heq with hx hk
    subst hx
    subst hk
    rw [if_pos h2]

theorem generalSearch_eq_nonext {x : Atom} {krest : List Atom}
    (h1 : key.drop (matchLen (n.label.drop loff) key) = x :: krest)
    (h2 : (n.label.drop loff).drop (matchLen (n.label.drop loff) key) = [])
    (h3 : tableFind n.children x = none) :
    generalSearch n loff key = ⟨.noNextEdge n (x :: krest), [], none, 0⟩ := by
  rw [generalSearch]
  split
  next heq =>
    rw [h1] at heq
    cases heq
  next x' krest' heq =>
    rw [h1] at heq
    injection heq with hx hk
    subst hx
    subst hk
    rw [if_neg (by simp [h2]), h3]

theorem generalSearch_eq_descend {x : Atom} {krest : List Atom} {i : Nat} {c : Node W}
    (h1 : key.drop (matchLen (n.label.drop loff) key) = x :: krest)
    (h2 : (n.label.drop loff).drop (matchLen (n.label.drop loff) key) = [])
    (h3 : tableFind n.children x = some (i, c)) :
    generalSearch n loff key
      = ⟨(generalSearch c 1 krest).outcome, i :: (generalSearch c 1 krest).path,
          some (match (generalSearch c 1 krest).lastEdge with
                | none => matchLen (n.label.drop loff) key
                | some p => matchLen (n.label.drop loff) key + 1 + p),
          (generalSearch c 1 krest).descents + 1⟩ := by
  rw [generalSearch]
  split
  next heq =>
    rw [h1] at heq
    cases heq
  next x' krest' heq =>
    rw [h1] at heq
    injection heq with hx hk
    subst hx
    subst hk
    rw [if_neg (by simp [h2]), h3]

end BranchEq

/-- Well-formedness is preserved by the recursive insertion body, which also
never changes the first `loff` atoms of the node's label (so a child keeps
its first atom and its slot stays consistent). -/
theorem insertGo_WF {V : Type} (H : Holder W V) (rep : V → V → V) (v : V) :
    ∀ (key : List Atom) (n : Node W) (loff : Nat), WFn n → loff ≤ n.label.length →
      WFn (insertGo H rep v n loff key).1 ∧
      (insertGo H rep v n loff key).1.label.take loff = n.label.take loff ∧
      loff ≤ (insertGo H rep v n loff key).1.label.length := by
  suffices hmain : ∀ (L : Nat) (key : List Atom), key.length < L →
      ∀ (n : Node W) (loff : Nat), WFn n → loff ≤ n.label.length →
      WFn (insertGo H rep v n loff key).1 ∧
      (insertGo H rep v n loff key).1.label.take loff = n.label.take loff ∧
      loff ≤ (insertGo H rep v n loff key).1.label.length by
    intro key n loff h1 h2
    exact hmain (key.length + 1) key (Nat.lt_succ_self _) n loff h1 h2
  intro L
  induction L with
  | zero =>
      intro key hk
      exact absurd hk (Nat.not_lt_zero _)
  | succ L ih =>
      intro key hkey n loff hn hloff
      rcases hkd : key.drop (matchLen (n.label.drop loff) key) with _ | ⟨x, krest⟩
      · by_cases hld : (n.label.drop loff).drop (matchLen (n.label.drop loff) key) = []
        · -- exactMatch: only the value slot changes
          rw [insertGo_eq_exact H rep v n loff key hkd hld]
          refine ⟨?_, by simp, by simpa using hloff⟩
          exact WFn_of_parts (by simpa using hn.tbl) (by simpa using hn.child)
        · -- endInTheMiddle: split at `loff + m`, then set the value
          rw [insertGo_eq_endmid H rep v n loff key hkd hld]
          have hdd : (n.label.drop loff).drop (matchLen (n.label.drop loff) key)
              = n.label.drop (loff + matchLen (n.label.drop loff) key) := by
            rw [List.drop_drop, Nat.add_comm]
          have hdropne : n.label.drop (loff + matchLen (n.label.drop loff) key) ≠ [] := by
            rw [← hdd]
            exact hld
          obtain ⟨hw, hlab, _hslot, _hmm, _hcnt⟩ :=
            split_WF hn (Or.inl rfl) hdropne
          refine ⟨?_, ?_, ?_⟩
          · exact WFn_of_parts (by simpa using hw.tbl) (by simpa using hw.child)
          · rw [Node.label_withSlot, hlab, List.take_take]
            congr 1
            omega
          · rw [Node.label_withSlot, hlab, List.length_take]
            have hm := matchLen_le_left (n.label.drop loff) key
            rw [List.length_drop] at hm
            omega
      · have hmlt_lbl_or : True := trivial
        by_cases hld : (n.label.drop loff).drop (matchLen (n.label.drop loff) key) = []
        · rcases hfind : tableFind n.children x with _ | ⟨i, c⟩
          · -- noNextEdge: attach a fresh leaf under `n`
            rw [insertGo_eq_nonext H rep v n loff key hkd hld hfind]
            have hnew : ∀ c, some c ∈ n.children → c.kfirst ≠ x :=
              tableFind_none_spec hn.tbl.1 hn.tbl.2.1 hfind
            obtain ⟨hinv', hmem', _hcnt'⟩ :=
              put_spec hn.tbl (by simp [Node.kfirst] : (Node.mk (x :: krest)
                (H.setv v) ([] : List (Option (Node W))) : Node W).label ≠ [])
                (by
                  intro c hc hke
                  exact hnew c hc (by simpa [Node.kfirst] using hke))
            refine ⟨?_, by simp, by simpa using hloff⟩
            refine WFn_of_parts (by simpa using hinv') ?_
            intro c hc
            rw [Node.children_withChildren] at hc
            rcases (hmem' c).mp hc with rfl | hc'
            · exact WFn_leaf _ _
            · exact hn.child c hc'
          · -- descend into the found child and rebuild it in place
            obtain ⟨hgd, hkf, hih⟩ := tableFind_some_spec hfind
            have hcmem : some c ∈ n.children := mem_iff_getD.mpr ⟨i, hgd⟩
            have hcwf : WFn c := hn.child c hcmem
            have hclblne : c.label ≠ [] := (hn.tbl.1 i c hgd).1
            have hclen : 1 ≤ c.label.length := by
              cases hc : c.label with
              | nil => exact absurd hc hclblne
              | cons a t => simp [hc]
            have hkrlen : krest.length < L := by
              have hlen := congrArg List.length hkd
              have hmle := matchLen_le_right (n.label.drop loff) key
              rw [List.length_drop] at hlen
              simp at hlen
              omega
            obtain ⟨ihwf, ihtake, ihlen⟩ := ih krest hkrlen c 1 hcwf hclen
            rw [insertGo_eq_descend H rep v n loff key hkd hld hfind]
            have hkfeq : (insertGo H rep v c 1 krest).1.kfirst = c.kfirst :=
              kfirst_eq_of_take_one ihlen ihtake
            have hrlblne : (insertGo H rep v c 1 krest).1.label ≠ [] := by
              intro he
              rw [he] at ihlen
              simp at ihlen
            obtain ⟨hs, ht, hr⟩ := hn.tbl
            have hgd' : ∀ j d, (n.children.set i (some (insertGo H rep v c 1 krest).1)).getD
                j none = some d →
                d.label ≠ [] ∧ atom_hash d.kfirst (n.children.length - 1) = j := by
              intro j d hd
              by_cases hij : i = j
              · subst hij
                have hilt : i < n.children.length := by
                  by_contra hge
                  rw [List.getD_eq_getElem?_getD, List.getElem?_eq_none (by omega)] at hgd
                  simp at hgd
                rw [getD_set_self hilt] at hd
                cases hd
                refine ⟨hrlblne, ?_⟩
                rw [show (insertGo H rep v c 1 krest).1.kfirst = c.kfirst from hkfeq]
                exact (hs i c hgd).2
              · rw [getD_set_ne hij] at hd
                exact hs j d hd
            have hcount' : (liveList (n.children.set i
                (some (insertGo H rep v c 1 krest).1))).length
                = (liveList n.children).length :=
              liveList_length_set_replace hgd _
            refine ⟨?_, by simp, by simpa using hloff⟩
            refine WFn_of_parts ?_ ?_
            · rw [Node.children_withChildren]
              refine ⟨?_, ?_, ?_, ?_, ?_⟩
              · intro j d hd
                have := hgd' j d hd
                simpa using this
              · rcases ht with h0 | ⟨k, hk⟩
                · exact Or.inl (by simpa using h0)
                · exact Or.inr ⟨k, by simpa using hk⟩
              · intro h0
                rw [hcount'] at h0
                simpa using hr.1 h0
              · intro h1
                rw [hcount'] at h1
                simpa using hr.2.1 h1
              · intro cc dd h2 hccm hddm hkne
                rw [hcount'] at h2
                have hmem2 : ∀ y, some y ∈ n.children.set i
                    (some (insertGo H rep v c 1 krest).1) →
                    y = (insertGo H rep v c 1 krest).1 ∨ some y ∈ n.children := by
                  intro y hy
                  rcases List.mem_or_eq_of_mem_set hy with hy' | hy'
                  · exact Or.inr hy'
                  · exact Or.inl (Option.some_inj.mp hy')
                have hlenset : (n.children.set i
                    (some (insertGo H rep v c 1 krest).1)).length
                    = n.children.length := by simp
                rw [hlenset]
                rcases hmem2 cc hccm with rfl | hccm' <;>
                  rcases hmem2 dd hddm with rfl | hddm'
                · exact absurd rfl hkne
                · rw [hkfeq] at hkne ⊢
                  exact hr.2.2 c dd h2 hcmem hddm' hkne
                · rw [hkfeq] at hkne ⊢
                  rw [least_uncolliding_comm]
                  exact hr.2.2 c cc h2 hcmem hccm' (fun he => hkne he.symm)
                · exact hr.2.2 cc dd h2 hccm' hddm' hkne
            · intro d hd
              rw [Node.children_withChildren] at hd
              rcases List.mem_or_eq_of_mem_set hd with hd' | hd'
              · exact hn.child d hd'
              · rw [Option.some_inj.mp hd']
                exact ihwf
        · -- splitInTheMiddle: split, then attach the new sibling leaf
          rw [insertGo_eq_splitmid H rep v n loff key hkd hld]
          have hdd : (n.label.drop loff).drop (matchLen (n.label.drop loff) key)
              = n.label.drop (loff + matchLen (n.label.drop loff) key) := by
            rw [List.drop_drop, Nat.add_comm]
          have hdropne : n.label.drop (loff + matchLen (n.label.drop loff) key) ≠ [] := by
            rw [← hdd]
            exact hld
          obtain ⟨hw, hlab, _hslot, hmm, _hcnt⟩ :=
            split_WF hn (Or.inr rfl) hdropne
          have hmlt1 : matchLen (n.label.drop loff) key < (n.label.drop loff).length := by
            have := matchLen_le_left (n.label.drop loff) key
            rcases Nat.lt_or_ge (matchLen (n.label.drop loff) key)
              ((n.label.drop loff).length) with h | h
            · exact h
            · exfalso
              apply hld
              rw [List.drop_eq_nil_iff_le]
              omega
          have hmlt2 : matchLen (n.label.drop loff) key < key.length := by
            by_contra hge
            rw [List.drop_eq_nil_iff_le.mpr (by omega)] at hkd
            cases hkd
          have hxne : (Node.mk (n.label.drop (loff + matchLen (n.label.drop loff) key))
              n.slot n.children : Node W).kfirst ≠ x := by
            have hstop := matchLen_stop_ne (n.label.drop loff) key hmlt1 hmlt2
            have hx : key.getD (matchLen (n.label.drop loff) key) 0 = x := by
              rw [getD_eq_headD_drop, hkd]
              rfl
            have hl : (n.label.drop loff).getD (matchLen (n.label.drop loff) key) 0
                = (Node.mk (n.label.drop (loff + matchLen (n.label.drop loff) key))
                  n.slot n.children : Node W).kfirst := by
              rw [getD_eq_headD_drop, List.drop_drop, Nat.add_comm]
              rfl
            rw [hx, hl] at hstop
            exact hstop
          obtain ⟨hinv', hmem', _hcnt'⟩ :=
            put_spec hw.tbl (by simp [Node.kfirst] : (Node.mk (x :: krest)
              (H.setv v) ([] : List (Option (Node W))) : Node W).label ≠ [])
              (by
                intro d hd hke
                have hdnext := (hmm d).mp hd
                rw [hdnext] at hke
                exact hxne (by simpa [Node.kfirst] using hke))
          refine ⟨?_, ?_, ?_⟩
          · refine WFn_of_parts (by simpa using hinv') ?_
            intro d hd
            rw [Node.children_withChildren] at hd
            rcases (hmem' d).mp hd with rfl | hd'
            · exact WFn_leaf _ _
            · exact hw.child d hd'
          · rw [Node.label_withChildren, hlab, List.take_take]
            congr 1
            omega
          · rw [Node.label_withChildren, hlab, List.length_take]
            omega

/-- Map-level well-formedness. -/
def TrieMap.WFt (t : TrieMap W) : Prop := ∀ r, t.root = some r → WFn r

theorem WFt_empty : (TrieMap.empty : TrieMap W).WFt := by
  intro r hr
  cases hr

theorem insertP_WF {V : Type} (H : Holder W V) (rep : V → V → V)
    {t : TrieMap W} (key : List Atom) (v : V) (ht : t.WFt) :
    (TrieMap.insertP H rep t key v).WFt := by
  intro r hr
  unfold TrieMap.insertP at hr
  rcases hroot : t.root with _ | r0
  · rw [hroot] at hr
    simp at hr
    rw [← hr]
    exact WFn_leaf _ _
  · rw [hroot] at hr
    simp at hr
    rw [← hr]
    exact (insertGo_WF H rep v key r0 0 (ht r0 hroot) (by omega)).1

/-- An arbitrary interleaving of `insert` / `add` operations (each with its
replace policy), applied to a map. -/
def applyOps {V : Type} (H : Holder W V)
    (ops : List ((V → V → V) × List Atom × V)) (t : TrieMap W) : TrieMap W :=
  ops.foldl (fun t op => TrieMap.insertP H op.1 t op.2.1 op.2.2) t

theorem applyOps_WF {V : Type} (H : Holder W V)
    (ops : List ((V → V → V) × List Atom × V)) {t : TrieMap W} (ht : t.WFt) :
    (applyOps H ops t).WFt := by
  induction ops generalizing t with
  | nil => exact ht
  | cons op ops ih => exact ih (insertP_WF H op.1 op.2.1 op.2.2 ht)

/-- A node property holding at every node of a subtree. -/
inductive AllNodes (P : Node W → Prop) : Node W → Prop where
  | mk : ∀ (n : Node W), P n →
      (∀ c, some c ∈ n.children → AllNodes P c) → AllNodes P n

/-- Invariants I1 and I5 at a single node: two distinct live slots hold
children with different first atoms, and their first atoms hash to the
distinct slots they occupy. -/
def nodeI1I5 (n : Node W) : Prop :=
  ∀ i j ci cj, n.children.getD i none = some ci → n.children.getD j none = some cj →
    i ≠ j →
    ci.kfirst ≠ cj.kfirst ∧
    atom_hash ci.kfirst (n.children.length - 1) ≠ atom_hash cj.kfirst (n.children.length - 1)

theorem WFn_allNodes_I1I5 {n : Node W} (h : WFn n) : AllNodes nodeI1I5 n := by
  induction h with
  | mk lbl s cs htbl hch ih =>
      refine AllNodes.mk _ ?_ ?_
      · intro i j ci cj hi hj hij
        have hci := (htbl.1 i ci hi).2
        have hcj := (htbl.1 j cj hj).2
        constructor
        · intro hk
          apply hij
          rw [← hci, ← hcj, hk]
        · intro hk
          apply hij
          rw [Node.children_mk] at hk
          rw [hci, hcj] at hk
          exact hk
      · intro c hc
        exact ih c hc

/-- The adaptive-size law at a single node: a table with exactly two live
children with first atoms `a ≠ b` has exactly `least_uncolliding_size a b`
slots (`((a XOR b) & -(a XOR b)) << 1`). -/
def nodeAdaptive (n : Node W) : Prop :=
  ∀ ci cj, (liveList n.children).length = 2 →
    some ci ∈ n.children → some cj ∈ n.children → ci.kfirst ≠ cj.kfirst →
    n.children.length = least_uncolliding_size ci.kfirst cj.kfirst

theorem WFn_allNodes_adaptive {n : Node W} (h : WFn n) : AllNodes nodeAdaptive n := by
  induction h with
  | mk lbl s cs htbl hch ih =>
      refine AllNodes.mk _ ?_ ?_
      · intro ci cj h2 hci hcj hk
        exact htbl.2.2.2.2 ci cj h2 hci hcj hk
      · intro c hc
        exact ih c hc

/-! ## The denotation: the abstract partial map a trie represents -/

/-- Specification-level child lookup: the live child whose label starts with
`x` (unique under slot consistency). -/
def findChild (cs : List (Option (Node W))) (x : Atom) : Option (Node W) :=
  (liveList cs).find? (fun c => c.kfirst == x)

theorem findChild_some {cs : List (Option (Node W))} {x : Atom} {c : Node W}
    (h : findChild cs x = some c) : some c ∈ cs ∧ c.kfirst = x := by
  have h1 := List.find?_some h
  have h2 := List.mem_of_find?_eq_some h
  exact ⟨mem_liveList.mp h2, by simpa using h1⟩

theorem findChild_none_iff {cs : List (Option (Node W))} {x : Atom} :
    findChild cs x = none ↔ ∀ c, some c ∈ cs → c.kfirst ≠ x := by
  unfold findChild
  rw [List.find?_eq_none]
  constructor
  · intro h c hc
    have := h c (mem_liveList.mpr hc)
    simpa using this
  · intro h c hc
    have := h c (mem_liveList.mp hc)
    simpa using this

theorem findChild_eq_some_iff {cs : List (Option (Node W))} (hs : slotOK cs)
    {x : Atom} {c : Node W} :
    findChild cs x = some c ↔ (some c ∈ cs ∧ c.kfirst = x) := by
  constructor
  · exact findChild_some
  · rintro ⟨hmem, hk⟩
    rcases hf : findChild cs x with _ | c'
    · exact absurd hk (findChild_none_iff.mp hf c hmem)
    · obtain ⟨hmem', hk'⟩ := findChild_some hf
      rw [slotOK_kfirst_inj hs hmem' hmem (hk'.trans hk.symm)]

/-- Under the invariant, the hashed single-probe `find` agrees with the
specification-level lookup. -/
theorem tableFind_eq_findChild {cs : List (Option (Node W))}
    (hs : slotOK cs) {x : Atom} :
    tableFind cs x = (findChild cs x).map
      (fun c => (atom_hash x (cs.length - 1), c)) := by
  rcases hf : findChild cs x with _ | c
  · rcases htf : tableFind cs x with _ | ⟨i, c'⟩
    · rfl
    · obtain ⟨hgd, hk, _⟩ := tableFind_some_spec htf
      exact absurd hk (findChild_none_iff.mp hf c' (mem_iff_getD.mpr ⟨i, hgd⟩))
  · obtain ⟨hmem, hk⟩ := findChild_some hf
    rw [tableFind_mem_spec hs hmem hk]
    rfl

/-- The slot (the `ValueHolder` state) of the node at which `k` ends, `none`
when no node ends there.  `loff` plays the same role as in the search: the
first `loff` atoms of the node's label are already consumed. -/
def slotDenote (n : Node W) (loff : Nat) (k : List Atom) : Option W :=
  let lbl := n.label.drop loff
  if k.take lbl.length = lbl then
    match hd : k.drop lbl.length with
    | [] => some n.slot
    | x :: rest =>
        match findChild n.children x with
        | none => none
        | some c => slotDenote c 1 rest
  else none
termination_by k.length
decreasing_by
  have hlen := congrArg List.length hd
  simp at hlen
  omega

/-- The value the trie associates to `k` below `n`: the slot at `k`,
filtered through `has_value`. -/
def denote {V : Type} (H : Holder W V) (n : Node W) (loff : Nat)
    (k : List Atom) : Option V :=
  match slotDenote n loff k with
  | none => none
  | some s => if H.hasv s then some (H.getv s) else none

theorem slotDenote_eq_nomatch {n : Node W} {loff : Nat} {k : List Atom}
    (h : ¬ k.take (n.label.drop loff).length = n.label.drop loff) :
    slotDenote n loff k = none := by
  rw [slotDenote]
  rw [if_neg h]

theorem slotDenote_eq_here {n : Node W} {loff : Nat} {k : List Atom}
    (h : k.take (n.label.drop loff).length = n.label.drop loff)
    (hd : k.drop (n.label.drop loff).length = []) :
    slotDenote n loff k = some n.slot := by
  rw [slotDenote]
  rw [if_pos h]
  split
  next heq => rfl
  next x rest heq =>
    rw [hd] at heq
    cases heq

theorem slotDenote_eq_down {n : Node W} {loff : Nat} {k : List Atom}
    {x : Atom} {rest : List Atom}
    (h : k.take (n.label.drop loff).length = n.label.drop loff)
    (hd : k.drop (n.label.drop loff).length = x :: rest) :
    slotDenote n loff k
      = (match findChild n.children x with
         | none => none
         | some c => slotDenote c 1 rest) := by
  rw [slotDenote]
  rw [if_pos h]
  split
  next heq =>
    rw [hd] at heq
    cases heq
  next x' rest' heq =>
    rw [hd] at heq
    injection heq with hx hr
    subst hx
    subst hr
    rfl

theorem findChild_of_tableFind_some {cs : List (Option (Node W))}
    (hs : slotOK cs) {x : Atom} {i : Nat} {c : Node W}
    (h : tableFind cs x = some (i, c)) : findChild cs x = some c := by
  obtain ⟨hgd, hk, _⟩ := tableFind_some_spec h
  exact (findChild_eq_some_iff hs).mpr ⟨mem_iff_getD.mpr ⟨i, hgd⟩, hk⟩

theorem findChild_of_tableFind_none {cs : List (Option (Node W))}
    (hs : slotOK cs) (ht : tblSized cs) {x : Atom}
    (h : tableFind cs x = none) : findChild cs x = none :=
  findChild_none_iff.mpr (tableFind_none_spec hs ht h)

/-- `general_search` read through the `get` filter computes the denotation:
the value is returned iff the search ends in *exactMatch* at a node with a
value, and that is exactly the abstract map. -/
theorem search_eq_denote {V : Type} (H : Holder W V) :
    ∀ (key : List Atom) (n : Node W) (loff : Nat), WFn n →
    (match (generalSearch n loff key).outcome with
     | .exactMatch nn => if H.hasv nn.slot then some (H.getv nn.slot) else none
     | _ => none) = denote H n loff key := by
  suffices hmain : ∀ (L : Nat) (key : List Atom), key.length < L →
      ∀ (n : Node W) (loff : Nat), WFn n →
      (match (generalSearch n loff key).outcome with
       | .exactMatch nn => if H.hasv nn.slot then some (H.getv nn.slot) else none
       | _ => none) = denote H n loff key by
    intro key n loff hn
    exact hmain (key.length + 1) key (Nat.lt_succ_self _) n loff hn
  intro L
  induction L with
  | zero =>
      intro key hk
      exact absurd hk (Nat.not_lt_zero _)
  | succ L ih =>
      intro key hkey n loff hn
      rcases hkd : key.drop (matchLen (n.label.drop loff) key) with _ | ⟨x, krest⟩
      · by_cases hld : (n.label.drop loff).drop (matchLen (n.label.drop loff) key) = []
        · rw [generalSearch_eq_exact n loff key hkd hld]
          have hm : matchLen (n.label.drop loff) key = (n.label.drop loff).length := by
            have h1 := matchLen_le_left (n.label.drop loff) key
            rw [List.drop_eq_nil_iff] at hld
            omega
          have htake : key.take (n.label.drop loff).length = n.label.drop loff :=
            (matchLen_eq_left_iff _ _).mp hm
          have hdrop : key.drop (n.label.drop loff).length = [] := by
            rw [← hm]
            exact hkd
          rw [denote, slotDenote_eq_here htake hdrop]
        · rw [generalSearch_eq_endmid n loff key hkd hld]
          have hnm : ¬ key.take (n.label.drop loff).length = n.label.drop loff := by
            intro hc
            apply hld
            rw [(matchLen_eq_left_iff _ _).mpr hc]
            rw [List.drop_eq_nil_iff]
          rw [denote, slotDenote_eq_nomatch hnm]
      · by_cases hld : (n.label.drop loff).drop (matchLen (n.label.drop loff) key) = []
        · have hm : matchLen (n.label.drop loff) key = (n.label.drop loff).length := by
            have h1 := matchLen_le_left (n.label.drop loff) key
            rw [List.drop_eq_nil_iff] at hld
            omega
          have htake : key.take (n.label.drop loff).length = n.label.drop loff :=
            (matchLen_eq_left_iff _ _).mp hm
          have hdrop : key.drop (n.label.drop loff).length = x :: krest := by
            rw [← hm]
            exact hkd
          rcases hfind : tableFind n.children x with _ | ⟨i, c⟩
          · rw [generalSearch_eq_nonext n loff key hkd hld hfind]
            rw [denote, slotDenote_eq_down htake hdrop,
              findChild_of_tableFind_none hn.tbl.1 hn.tbl.2.1 hfind]
          · obtain ⟨hgd, hkf, _⟩ := tableFind_some_spec hfind
            have hcmem : some c ∈ n.children := mem_iff_getD.mpr ⟨i, hgd⟩
            have hkrlen : krest.length < L := by
              have hlen := congrArg List.length hkd
              have hmle := matchLen_le_right (n.label.drop loff) key
              simp at hlen
              omega
            rw [generalSearch_eq_descend n loff key hkd hld hfind]
            have hout : (⟨(generalSearch c 1 krest).outcome,
                i :: (generalSearch c 1 krest).path,
                some (match (generalSearch c 1 krest).lastEdge with
                      | none => matchLen (n.label.drop loff) key
                      | some p => matchLen (n.label.drop loff) key + 1 + p),
                (generalSearch c 1 krest).descents + 1⟩ : SearchResult W).outcome
                = (generalSearch c 1 krest).outcome := rfl
            rw [hout]
            have hrhs : denote H n loff key = denote H c 1 krest := by
              rw [denote, denote, slotDenote_eq_down htake hdrop,
                findChild_of_tableFind_some hn.tbl.1 hfind]
            rw [hrhs]
            exact ih krest hkrlen c 1 (hn.child c hcmem)
        · rw [generalSearch_eq_splitmid n loff key hkd hld]
          have hnm : ¬ key.take (n.label.drop loff).length = n.label.drop loff := by
            intro hc
            apply hld
            rw [(matchLen_eq_left_iff _ _).mpr hc]
            rw [List.drop_eq_nil_iff]
          rw [denote, slotDenote_eq_nomatch hnm]

/-! ## Transparency of `split` for the denotation -/

theorem cons_headD_tail {l : List Atom} (h : l ≠ []) : l.headD 0 :: l.tail = l := by
  cases l
  · exact absurd rfl h
  · rfl

theorem split_label (n : Node W) (f : W) (hint b : Nat) :
    (n.split f hint b).label = n.label.take b := by
  cases n
  rfl

theorem split_slot (n : Node W) (f : W) (hint b : Nat) :
    (n.split f hint b).slot = f := by
  cases n
  rfl

theorem split_children (n : Node W) (f : W) (hint b : Nat) :
    (n.split f hint b).children
      = put (List.replicate hint none) (Node.mk (n.label.drop b) n.slot n.children) := by
  cases n
  rfl

/-- Walking a node whose (offset) label is `T ++ R` on the input
`T ++ head R :: rest` is walking a node labelled `R` (with the same slot and
children) on `rest` with its first atom consumed. -/
theorem slotDenote_append_cons {n : Node W} {loff : Nat} {T R : List Atom}
    (hsplit : n.label.drop loff = T ++ R) (hR : R ≠ []) (rest : List Atom) :
    slotDenote n loff (T ++ R.headD 0 :: rest)
      = slotDenote (Node.mk R n.slot n.children) 1 rest := by
  have hRc : R.headD 0 :: R.tail = R := cons_headD_tail hR
  have hlbl : (n.label.drop loff).length = T.length + R.length := by
    rw [hsplit]
    simp
  have hRlen : R.length = R.tail.length + 1 := by
    conv_lhs => rw [← hRc]
    simp
  have htakeeq : (T ++ R.headD 0 :: rest).take (n.label.drop loff).length
      = T ++ R.headD 0 :: rest.take R.tail.length := by
    rw [hlbl, List.take_append, hRlen, List.take_succ_cons]
  have hdropeq : (T ++ R.headD 0 :: rest).drop (n.label.drop loff).length
      = rest.drop R.tail.length := by
    rw [hlbl, List.drop_append, hRlen, List.drop_succ_cons]
  have hlblN : ((Node.mk R n.slot n.children : Node W).label.drop 1) = R.tail := by
    rw [Node.label_mk, List.drop_one]
  by_cases hCN : rest.take R.tail.length = R.tail
  · have hC0 : (T ++ R.headD 0 :: rest).take (n.label.drop loff).length
        = n.label.drop loff := by
      rw [htakeeq, hCN, hsplit, hRc]
    rcases hdd : rest.drop R.tail.length with _ | ⟨z, rest2⟩
    · rw [slotDenote_eq_here hC0 (by rw [hdropeq, hdd]),
        slotDenote_eq_here (by rw [hlblN]; exact hCN) (by rw [hlblN]; exact hdd),
        Node.slot_mk]
    · rw [slotDenote_eq_down hC0 (by rw [hdropeq]; exact hdd),
        slotDenote_eq_down (by rw [hlblN]; exact hCN) (by rw [hlblN]; exact hdd),
        Node.children_mk]
  · have hC0n : ¬ (T ++ R.headD 0 :: rest).take (n.label.drop loff).length
        = n.label.drop loff := by
      intro hc
      apply hCN
      rw [htakeeq, hsplit] at hc
      have hc2 := List.append_cancel_left hc
      conv_rhs at hc2 => rw [← hRc]
      injection hc2
    have hCNn : ¬ rest.take ((Node.mk R n.slot n.children : Node W).label.drop 1).length
        = (Node.mk R n.slot n.children : Node W).label.drop 1 := by
      rw [hlblN]
      exact hCN
    rw [slotDenote_eq_nomatch hC0n, slotDenote_eq_nomatch hCNn]

/-- After a split at `b`, the node sitting at the truncated label carries the
fresh (absent) value slot. -/
theorem slotDenote_split_self {n : Node W} {fresh : W} {hint : Nat} {b loff : Nat}
    (hlo : loff ≤ b) (hb : b ≤ n.label.length) :
    slotDenote (n.split fresh hint b) loff ((n.label.drop loff).take (b - loff))
      = some fresh := by
  have hsl : (n.split fresh hint b).label.drop loff
      = (n.label.drop loff).take (b - loff) := by
    rw [split_label, List.drop_take]
  rw [slotDenote_eq_here (by rw [hsl, List.take_length])
    (by rw [hsl, List.drop_length]), split_slot]

/-- A split is invisible to the denotation everywhere except at the junction
node itself. -/
theorem slotDenote_split_other {n : Node W} (hn : WFn n) {fresh : W} {hint : Nat}
    {b loff : Nat} (hhint : hint = 1 ∨ hint = 2) (hlo : loff ≤ b)
    (hb : n.label.drop b ≠ []) {k' : List Atom}
    (hk' : k' ≠ (n.label.drop loff).take (b - loff)) :
    slotDenote (n.split fresh hint b) loff k' = slotDenote n loff k' := by
  have hblt : b < n.label.length := by
    by_contra hge
    exact hb (List.drop_eq_nil_iff.mpr (by omega))
  have hTlen : ((n.label.drop loff).take (b - loff)).length = b - loff := by
    rw [List.length_take, List.length_drop]
    omega
  have hsl : (n.split fresh hint b).label.drop loff
      = (n.label.drop loff).take (b - loff) := by
    rw [split_label, List.drop_take]
  have hsplitdec : n.label.drop loff
      = (n.label.drop loff).take (b - loff) ++ n.label.drop b := by
    conv_lhs => rw [← List.take_append_drop (b - loff) (n.label.drop loff)]
    rw [List.drop_drop]
    congr 2
    omega
  obtain ⟨hw, _hlab, _hslot, hmm, _hcnt⟩ := split_WF hn hhint hb
  have hfc : ∀ y, findChild (n.split fresh hint b).children y
      = if y = (n.label.drop b).headD 0
        then some (Node.mk (n.label.drop b) n.slot n.children) else none := by
    intro y
    by_cases hy : y = (n.label.drop b).headD 0
    · rw [if_pos hy]
      exact (findChild_eq_some_iff hw.tbl.1).mpr
        ⟨(hmm _).mpr rfl, by rw [Node.kfirst, Node.label_mk, hy]⟩
    · rw [if_neg hy]
      apply findChild_none_iff.mpr
      intro c hc hke
      rw [(hmm c).mp hc] at hke
      rw [Node.kfirst, Node.label_mk] at hke
      exact hy hke.symm
  by_cases hC1 : k'.take (b - loff) = (n.label.drop loff).take (b - loff)
  · rcases hdal : k'.drop (b - loff) with _ | ⟨y, rest⟩
    · exfalso
      apply hk'
      have h0 := (List.take_append_drop (b - loff) k').symm
      rw [hC1, hdal] at h0
      simpa using h0
    · have hkeq : k' = (n.label.drop loff).take (b - loff) ++ y :: rest := by
        have h0 := (List.take_append_drop (b - loff) k').symm
        rw [hC1, hdal] at h0
        exact h0
      by_cases hy : y = (n.label.drop b).headD 0
      · -- descend through the junction: both sides walk into the successor
        rw [hkeq, hy]
        have hlhs : slotDenote (n.split fresh hint b) loff
            ((n.label.drop loff).take (b - loff) ++ (n.label.drop b).headD 0 :: rest)
            = slotDenote (Node.mk (n.label.drop b) n.slot n.children) 1 rest := by
          have htk : ((n.label.drop loff).take (b - loff)
              ++ (n.label.drop b).headD 0 :: rest).take
                ((n.split fresh hint b).label.drop loff).length
              = (n.split fresh hint b).label.drop loff := by
            rw [hsl, hTlen, List.take_append_of_le_length (by rw [hTlen])]
            rw [List.take_take]
            congr 1
            omega
          have hdk : ((n.label.drop loff).take (b - loff)
              ++ (n.label.drop b).headD 0 :: rest).drop
                ((n.split fresh hint b).label.drop loff).length
              = (n.label.drop b).headD 0 :: rest := by
            rw [hsl]
            exact List.drop_left _ _
          rw [slotDenote_eq_down htk hdk, hfc, if_pos rfl]
        have hrhs : slotDenote n loff
            ((n.label.drop loff).take (b - loff) ++ (n.label.drop b).headD 0 :: rest)
            = slotDenote (Node.mk (n.label.drop b) n.slot n.children) 1 rest :=
          slotDenote_append_cons hsplitdec hb rest
        rw [hlhs, hrhs]
      · -- mismatch right after the junction: both sides miss
        have hlhs : slotDenote (n.split fresh hint b) loff k' = none := by
          have htk : k'.take ((n.split fresh hint b).label.drop loff).length
              = (n.split fresh hint b).label.drop loff := by
            rw [hsl, hTlen, hC1]
          have hdk : k'.drop ((n.split fresh hint b).label.drop loff).length
              = y :: rest := by
            rw [hsl, hTlen, hdal]
          rw [slotDenote_eq_down htk hdk, hfc, if_neg hy]
        have hrhs : slotDenote n loff k' = none := by
          apply slotDenote_eq_nomatch
          intro hc
          apply hy
          have hRc := cons_headD_tail hb
          have hc2 := congrArg (List.drop (b - loff)) hc
          rw [List.drop_take, hdal, List.drop_drop,
            show loff + (b - loff) = b by omega] at hc2
          rw [show (n.label.drop loff).length - (b - loff)
              = (n.label.drop b).length by simp [List.length_drop]; omega] at hc2
          have hRlen2 : (n.label.drop b).length = (n.label.drop b).tail.length + 1 := by
            conv_lhs => rw [← hRc]
            simp
          rw [hRlen2, List.take_succ_cons] at hc2
          conv_rhs at hc2 => rw [← hRc]
          injection hc2 with h1 _
        rw [hlhs, hrhs]
  · have hlhs : slotDenote (n.split fresh hint b) loff k' = none := by
      apply slotDenote_eq_nomatch
      rw [hsl, hTlen]
      exact hC1
    have hrhs : slotDenote n loff k' = none := by
      apply slotDenote_eq_nomatch
      intro hc
      apply hC1
      have : k'.take (b - loff) = (k'.take (n.label.drop loff).length).take (b - loff) := by
        rw [List.take_take]
        congr 1
        rw [List.length_drop]
        omega
      rw [this, hc]
    rw [hlhs, hrhs]

/-! ## Transparency of the other insertion actions -/

/-- Changing only the value slot changes the denotation only at the node's
own key. -/
theorem slotDenote_withSlot {n : Node W} {s : W} {loff : Nat} {k' : List Atom}
    (hne : k' ≠ n.label.drop loff) :
    slotDenote (n.withSlot s) loff k' = slotDenote n loff k' := by
  have hl : (n.withSlot s).label.drop loff = n.label.drop loff := by
    rw [Node.label_withSlot]
  by_cases hC : k'.take (n.label.drop loff).length = n.label.drop loff
  · rcases hdd : k'.drop (n.label.drop loff).length with _ | ⟨z, rest⟩
    · exfalso
      apply hne
      have h0 := (List.take_append_drop (n.label.drop loff).length k').symm
      rw [hC, hdd] at h0
      simpa using h0
    · rw [slotDenote_eq_down (by rw [hl]; exact hC) (by rw [hl]; exact hdd),
        slotDenote_eq_down hC hdd, Node.children_withSlot]
  · rw [slotDenote_eq_nomatch (by rw [hl]; exact hC), slotDenote_eq_nomatch hC]

/-- A node maps its own (residual) label to its slot. -/
theorem slotDenote_self_label (n : Node W) (loff : Nat) :
    slotDenote n loff (n.label.drop loff) = some n.slot :=
  slotDenote_eq_here (by rw [List.take_length]) (by rw [List.drop_length])

/-- A childless node maps nothing but its own label. -/
theorem slotDenote_no_children {lbl : List Atom} {s : W} {loff : Nat}
    {k' : List Atom} (hne : k' ≠ lbl.drop loff) :
    slotDenote (Node.mk lbl s ([] : List (Option (Node W)))) loff k' = none := by
  have hl : (Node.mk lbl s ([] : List (Option (Node W))) : Node W).label.drop loff
      = lbl.drop loff := by
    rw [Node.label_mk]
  by_cases hC : k'.take (lbl.drop loff).length = lbl.drop loff
  · rcases hdd : k'.drop (lbl.drop loff).length with _ | ⟨z, rest⟩
    · exfalso
      apply hne
      have h0 := (List.take_append_drop (lbl.drop loff).length k').symm
      rw [hC, hdd] at h0
      simpa using h0
    · rw [slotDenote_eq_down (by rw [hl]; exact hC) (by rw [hl]; exact hdd)]
      rfl
  · exact slotDenote_eq_nomatch (by rw [hl]; exact hC)

theorem slotDenote_leaf_self (x : Atom) (krest : List Atom) (s : W) :
    slotDenote (Node.mk (x :: krest) s ([] : List (Option (Node W)))) 1 krest
      = some s := by
  have h := slotDenote_self_label
    (Node.mk (x :: krest) s ([] : List (Option (Node W)))) 1
  simpa using h

theorem slotDenote_leaf_other {x : Atom} {krest rest : List Atom} {s : W}
    (hne : rest ≠ krest) :
    slotDenote (Node.mk (x :: krest) s ([] : List (Option (Node W)))) 1 rest
      = none :=
  slotDenote_no_children (by simpa using hne)

/-- `put` of an edge whose first atom is new finds that edge. -/
theorem findChild_putLeaf_self {cs : List (Option (Node W))} (hinv : TblInv cs)
    {x : Atom} (hfind : findChild cs x = none) (krest : List Atom) (s : W) :
    findChild (put cs (Node.mk (x :: krest) s [])) x
      = some (Node.mk (x :: krest) s ([] : List (Option (Node W)))) := by
  obtain ⟨hinv', hmem', _⟩ :=
    @put_spec W cs (Node.mk (x :: krest) s []) hinv (by simp)
      (fun c hc hke => (findChild_none_iff.mp hfind c hc)
        (by rw [hke]; rfl))
  exact (findChild_eq_some_iff hinv'.1).mpr ⟨(hmem' _).mpr (Or.inl rfl), rfl⟩

/-- `put` of an edge whose first atom is new is invisible to lookups of any
other atom. -/
theorem findChild_putLeaf_other {cs : List (Option (Node W))} (hinv : TblInv cs)
    {x : Atom} (hfind : findChild cs x = none) (krest : List Atom) (s : W)
    {y : Atom} (hy : y ≠ x) :
    findChild (put cs (Node.mk (x :: krest) s [])) y = findChild cs y := by
  obtain ⟨hinv', hmem', _⟩ :=
    @put_spec W cs (Node.mk (x :: krest) s []) hinv (by simp)
      (fun c hc hke => (findChild_none_iff.mp hfind c hc)
        (by rw [hke]; rfl))
  rcases hf : findChild cs y with _ | e
  · apply findChild_none_iff.mpr
    intro c hc
    rcases (hmem' c).mp hc with rfl | hc'
    · show (Node.mk (x :: krest) s ([] : List (Option (Node W)))).kfirst ≠ y
      exact fun he => hy (he.symm.trans rfl)
    · exact findChild_none_iff.mp hf c hc'
  · obtain ⟨hmemE, hkE⟩ := findChild_some hf
    exact (findChild_eq_some_iff hinv'.1).mpr ⟨(hmem' e).mpr (Or.inr hmemE), hkE⟩

/-- Attaching a fresh leaf edge adds exactly one key to the sub-map. -/
theorem slotDenote_putLeaf_self {n : Node W} (hn : WFn n) {x : Atom}
    {krest : List Atom} {s : W}
    (hfind : findChild n.children x = none) (loff : Nat) :
    slotDenote (n.withChildren (put n.children (Node.mk (x :: krest) s []))) loff
      (n.label.drop loff ++ x :: krest) = some s := by
  have hl : (n.withChildren (put n.children
      (Node.mk (x :: krest) s []))).label.drop loff = n.label.drop loff := by
    rw [Node.label_withChildren]
  rw [slotDenote_eq_down (by rw [hl]; exact List.take_left _ _)
      (by rw [hl]; exact List.drop_left _ _),
    Node.children_withChildren, findChild_putLeaf_self hn.tbl hfind]
  exact slotDenote_leaf_self x krest s

theorem slotDenote_putLeaf_other {n : Node W} (hn : WFn n) {x : Atom}
    {krest : List Atom} {s : W}
    (hfind : findChild n.children x = none) {loff : Nat} {k' : List Atom}
    (hk' : k' ≠ n.label.drop loff ++ x :: krest) :
    slotDenote (n.withChildren (put n.children (Node.mk (x :: krest) s []))) loff k'
      = slotDenote n loff k' := by
  have hl : (n.withChildren (put n.children
      (Node.mk (x :: krest) s []))).label.drop loff = n.label.drop loff := by
    rw [Node.label_withChildren]
  by_cases hC : k'.take (n.label.drop loff).length = n.label.drop loff
  · rcases hdd : k'.drop (n.label.drop loff).length with _ | ⟨z, rest⟩
    · rw [slotDenote_eq_here (by rw [hl]; exact hC) (by rw [hl]; exact hdd),
        slotDenote_eq_here hC hdd, Node.slot_withChildren]
    · have hkeq : k' = n.label.drop loff ++ z :: rest := by
        have h0 := (List.take_append_drop (n.label.drop loff).length k').symm
        rw [hC, hdd] at h0
        exact h0
      rw [slotDenote_eq_down (by rw [hl]; exact hC) (by rw [hl]; exact hdd),
        slotDenote_eq_down hC hdd, Node.children_withChildren]
      by_cases hz : z = x
      · subst hz
        rw [findChild_putLeaf_self hn.tbl hfind, hfind]
        show slotDenote (Node.mk (z :: krest) s ([] : List (Option (Node W)))) 1 rest
          = none
        apply slotDenote_leaf_other
        intro hre
        apply hk'
        rw [hkeq, hre]
      · rw [findChild_putLeaf_other hn.tbl hfind krest s hz]
  · rw [slotDenote_eq_nomatch (by rw [hl]; exact hC), slotDenote_eq_nomatch hC]

/-! ## The pointwise effect of `insert` on the denotation -/

/-- At the inserted key the rebuilt subtree stores exactly
`insert_value(existing-slot-or-fresh, value)`: the five insertion actions
agree with the abstract map update. -/
theorem slotDenote_insertGo_self {V : Type} (H : Holder W V) (rep : V → V → V)
    (v : V) (hfresh : H.hasv H.fresh = false) :
    ∀ (key : List Atom) (n : Node W) (loff : Nat), WFn n → loff ≤ n.label.length →
      slotDenote (insertGo H rep v n loff key).1 loff key
        = some (insert_value H rep ((slotDenote n loff key).getD H.fresh) v) := by
  suffices hmain : ∀ (L : Nat) (key : List Atom), key.length < L →
      ∀ (n : Node W) (loff : Nat), WFn n → loff ≤ n.label.length →
      slotDenote (insertGo H rep v n loff key).1 loff key
        = some (insert_value H rep ((slotDenote n loff key).getD H.fresh) v) by
    intro key n loff h1 h2
    exact hmain (key.length + 1) key (Nat.lt_succ_self _) n loff h1 h2
  intro L
  induction L with
  | zero =>
      intro key hk
      exact absurd hk (Nat.not_lt_zero _)
  | succ L ih =>
      intro key hkey n loff hn hloff
      rcases hkd : key.drop (matchLen (n.label.drop loff) key) with _ | ⟨x, krest⟩
      · by_cases hld : (n.label.drop loff).drop (matchLen (n.label.drop loff) key) = []
        · -- exactMatch: the slot is updated in place
          have hbr : (insertGo H rep v n loff key).1
              = n.withSlot (insert_value H rep n.slot v) :=
            congrArg Prod.fst (insertGo_eq_exact H rep v n loff key hkd hld)
          have hm : matchLen (n.label.drop loff) key = (n.label.drop loff).length := by
            have h1 := matchLen_le_left (n.label.drop loff) key
            rw [List.drop_eq_nil_iff] at hld
            omega
          have htake : key.take (n.label.drop loff).length = n.label.drop loff :=
            (matchLen_eq_left_iff _ _).mp hm
          have hdrop : key.drop (n.label.drop loff).length = [] := by
            rw [← hm]
            exact hkd
          rw [hbr, slotDenote_eq_here (by rw [Node.label_withSlot]; exact htake)
              (by rw [Node.label_withSlot]; exact hdrop),
            Node.slot_withSlot, slotDenote_eq_here htake hdrop]
          rfl
        · -- endInTheMiddle: split, the truncated node takes the value
          have hbr : (insertGo H rep v n loff key).1
              = (n.split H.fresh 1 (loff + matchLen (n.label.drop loff) key)).withSlot
                  (H.setv v) :=
            congrArg Prod.fst (insertGo_eq_endmid H rep v n loff key hkd hld)
          have hlenle : key.length ≤ matchLen (n.label.drop loff) key := by
            have hlen := congrArg List.length hkd
            simp at hlen
            omega
          have hkeyT : key
              = (n.label.drop loff).take (matchLen (n.label.drop loff) key) := by
            rw [matchLen_take, List.take_of_length_le hlenle]
          have hnm : ¬ key.take (n.label.drop loff).length = n.label.drop loff := by
            intro hc
            apply hld
            rw [(matchLen_eq_left_iff _ _).mpr hc]
            rw [List.drop_eq_nil_iff]
          have hself := slotDenote_self_label
            ((n.split H.fresh 1 (loff + matchLen (n.label.drop loff) key)).withSlot
              (H.setv v)) loff
          rw [Node.slot_withSlot] at hself
          have harg : ((n.split H.fresh 1
              (loff + matchLen (n.label.drop loff) key)).withSlot
                (H.setv v)).label.drop loff = key := by
            rw [Node.label_withSlot, split_label, List.drop_take,
              Nat.add_sub_cancel_left]
            exact hkeyT.symm
          rw [harg] at hself
          rw [hbr, hself, slotDenote_eq_nomatch hnm]
          simp [insert_value, hfresh]
      · by_cases hld : (n.label.drop loff).drop (matchLen (n.label.drop loff) key) = []
        · have hm : matchLen (n.label.drop loff) key = (n.label.drop loff).length := by
            have h1 := matchLen_le_left (n.label.drop loff) key
            rw [List.drop_eq_nil_iff] at hld
            omega
          have htake : key.take (n.label.drop loff).length = n.label.drop loff :=
            (matchLen_eq_left_iff _ _).mp hm
          have hdrop : key.drop (n.label.drop loff).length = x :: krest := by
            rw [← hm]
            exact hkd
          rcases hfind : tableFind n.children x with _ | ⟨i, c⟩
          · -- noNextEdge: a fresh leaf is attached
            have hbr : (insertGo H rep v n loff key).1
                = n.withChildren (put n.children
                    (Node.mk (x :: krest) (H.setv v) [])) :=
              congrArg Prod.fst (insertGo_eq_nonext H rep v n loff key hkd hld hfind)
            have hfcnone : findChild n.children x = none :=
              findChild_of_tableFind_none hn.tbl.1 hn.tbl.2.1 hfind
            have hold : slotDenote n loff key = none := by
              rw [slotDenote_eq_down htake hdrop, hfcnone]
            have hput := @slotDenote_putLeaf_self W n hn x krest (H.setv v)
              hfcnone loff
            have harg : n.label.drop loff ++ x :: krest = key := by
              have h0 := List.take_append_drop (n.label.drop loff).length key
              rw [htake, hdrop] at h0
              exact h0
            rw [harg] at hput
            rw [hbr, hput, hold]
            simp [insert_value, hfresh]
          · -- descend: rebuild the child in place, recurse
            obtain ⟨hgd, hkf, _⟩ := tableFind_some_spec hfind
            have hbr : (insertGo H rep v n loff key).1
                = n.withChildren (n.children.set i
                    (some (insertGo H rep v c 1 krest).1)) :=
              congrArg Prod.fst (insertGo_eq_descend H rep v n loff key hkd hld hfind)
            have hcmem : some c ∈ n.children := mem_iff_getD.mpr ⟨i, hgd⟩
            have hcwf : WFn c := hn.child c hcmem
            have hclblne : c.label ≠ [] := (hn.tbl.1 i c hgd).1
            have hclen : 1 ≤ c.label.length := by
              cases hc2 : c.label with
              | nil => exact absurd hc2 hclblne
              | cons a t => simp [hc2]
            have hkrlen : krest.length < L := by
              have hlen := congrArg List.length hkd
              have hmle := matchLen_le_right (n.label.drop loff) key
              simp at hlen
              omega
            have hilt : i < n.children.length := by
              by_contra hge
              rw [List.getD_eq_getElem?_getD, List.getElem?_eq_none (by omega)] at hgd
              simp at hgd
            obtain ⟨ihwf, ihtake, ihlen⟩ := insertGo_WF H rep v krest c 1 hcwf hclen
            have hkfr : (insertGo H rep v c 1 krest).1.kfirst = x :=
              (kfirst_eq_of_take_one ihlen ihtake).trans hkf
            have hwfN : WFn (n.withChildren (n.children.set i
                (some (insertGo H rep v c 1 krest).1))) := by
              have h0 := (insertGo_WF H rep v key n loff hn hloff).1
              rw [hbr] at h0
              exact h0
            have hsOK : slotOK (n.children.set i
                (some (insertGo H rep v c 1 krest).1)) := by
              have := hwfN.tbl.1
              simpa using this
            have hmemr : some (insertGo H rep v c 1 krest).1
                ∈ n.children.set i (some (insertGo H rep v c 1 krest).1) :=
              mem_iff_getD.mpr ⟨i, getD_set_self hilt _ _⟩
            have hfcr : findChild (n.children.set i
                (some (insertGo H rep v c 1 krest).1)) x
                = some (insertGo H rep v c 1 krest).1 :=
              (findChild_eq_some_iff hsOK).mpr ⟨hmemr, hkfr⟩
            rw [hbr, slotDenote_eq_down (by rw [Node.label_withChildren]; exact htake)
                (by rw [Node.label_withChildren]; exact hdrop),
              Node.children_withChildren, hfcr,
              slotDenote_eq_down htake hdrop,
              findChild_of_tableFind_some hn.tbl.1 hfind]
            show slotDenote (insertGo H rep v c 1 krest).1 1 krest
                = some (insert_value H rep ((slotDenote c 1 krest).getD H.fresh) v)
            exact ih krest hkrlen c 1 hcwf hclen
        · -- splitInTheMiddle: split and attach the sibling leaf
          have hbr : (insertGo H rep v n loff key).1
              = (n.split H.fresh 2
                  (loff + matchLen (n.label.drop loff) key)).withChildren
                  (put (n.split H.fresh 2
                    (loff + matchLen (n.label.drop loff) key)).children
                    (Node.mk (x :: krest) (H.setv v) [])) :=
            congrArg Prod.fst (insertGo_eq_splitmid H rep v n loff key hkd hld)
          have hdd : (n.label.drop loff).drop (matchLen (n.label.drop loff) key)
              = n.label.drop (loff + matchLen (n.label.drop loff) key) := by
            rw [List.drop_drop, Nat.add_comm]
          have hbne : n.label.drop (loff + matchLen (n.label.drop loff) key) ≠ [] := by
            rw [← hdd]
            exact hld
          have hmlt1 : matchLen (n.label.drop loff) key
              < (n.label.drop loff).length := by
            have := matchLen_le_left (n.label.drop loff) key
            rcases Nat.lt_or_ge (matchLen (n.label.drop loff) key)
              ((n.label.drop loff).length) with h | h
            · exact h
            · exfalso
              apply hld
              rw [List.drop_eq_nil_iff]
              omega
          have hmlt2 : matchLen (n.label.drop loff) key < key.length := by
            by_contra hge
            rw [List.drop_eq_nil_iff.mpr (by omega)] at hkd
            cases hkd
          have hxne : (Node.mk (n.label.drop
              (loff + matchLen (n.label.drop loff) key))
              n.slot n.children : Node W).kfirst ≠ x := by
            have hstop := matchLen_stop_ne (n.label.drop loff) key hmlt1 hmlt2
            have hx : key.getD (matchLen (n.label.drop loff) key) 0 = x := by
              rw [getD_eq_headD_drop, hkd]
              rfl
            have hl2 : (n.label.drop loff).getD (matchLen (n.label.drop loff) key) 0
                = (Node.mk (n.label.drop (loff + matchLen (n.label.drop loff) key))
                  n.slot n.children : Node W).kfirst := by
              rw [getD_eq_headD_drop, List.drop_drop, Nat.add_comm]
              rfl
            rw [hx, hl2] at hstop
            exact hstop
          have hwn1 : WFn (n.split H.fresh 2
              (loff + matchLen (n.label.drop loff) key)) :=
            (split_WF hn (Or.inr rfl) hbne).1
          have hfindn1 : findChild (n.split H.fresh 2
              (loff + matchLen (n.label.drop loff) key)).children x = none := by
            apply findChild_none_iff.mpr
            intro c hc
            rw [((split_WF hn (Or.inr rfl) hbne).2.2.2.1 c).mp hc]
            exact hxne
          have h0 := List.take_append_drop (matchLen (n.label.drop loff) key) key
          rw [hkd, ← matchLen_take] at h0
          have hput := @slotDenote_putLeaf_self W
            (n.split H.fresh 2 (loff + matchLen (n.label.drop loff) key)) hwn1
            x krest (H.setv v) hfindn1 loff
          have harg : (n.split H.fresh 2
              (loff + matchLen (n.label.drop loff) key)).label.drop loff
              ++ x :: krest = key := by
            rw [split_label, List.drop_take, Nat.add_sub_cancel_left]
            exact h0
          rw [harg] at hput
          have hnm : ¬ key.take (n.label.drop loff).length = n.label.drop loff := by
            intro hc
            apply hld
            rw [(matchLen_eq_left_iff _ _).mpr hc]
            rw [List.drop_eq_nil_iff]
          rw [hbr, hput, slotDenote_eq_nomatch hnm]
          simp [insert_value, hfresh]

/-- Away from the inserted key the rebuilt subtree denotes the same partial
map (the split junction node gains a value-less slot, which the `has_value`
filter hides). -/
theorem denote_insertGo_other {V : Type} (H : Holder W V) (rep : V → V → V)
    (v : V) (hfresh : H.hasv H.fresh = false) :
    ∀ (key : List Atom) (n : Node W) (loff : Nat), WFn n → loff ≤ n.label.length →
      ∀ k', k' ≠ key →
      denote H (insertGo H rep v n loff key).1 loff k' = denote H n loff k' := by
  suffices hmain : ∀ (L : Nat) (key : List Atom), key.length < L →
      ∀ (n : Node W) (loff : Nat), WFn n → loff ≤ n.label.length →
      ∀ k', k' ≠ key →
      denote H (insertGo H rep v n loff key).1 loff k' = denote H n loff k' by
    intro key n loff h1 h2
    exact hmain (key.length + 1) key (Nat.lt_succ_self _) n loff h1 h2
  intro L
  induction L with
  | zero =>
      intro key hk
      exact absurd hk (Nat.not_lt_zero _)
  | succ L ih =>
      intro key hkey n loff hn hloff k' hk'
      rcases hkd : key.drop (matchLen (n.label.drop loff) key) with _ | ⟨x, krest⟩
      · by_cases hld : (n.label.drop loff).drop (matchLen (n.label.drop loff) key) = []
        · -- exactMatch: only the slot of the key's own node changes
          have hbr : (insertGo H rep v n loff key).1
              = n.withSlot (insert_value H rep n.slot v) :=
            congrArg Prod.fst (insertGo_eq_exact H rep v n loff key hkd hld)
          have hm : matchLen (n.label.drop loff) key = (n.label.drop loff).length := by
            have h1 := matchLen_le_left (n.label.drop loff) key
            rw [List.drop_eq_nil_iff] at hld
            omega
          have htake : key.take (n.label.drop loff).length = n.label.drop loff :=
            (matchLen_eq_left_iff _ _).mp hm
          have hkl : key.length = (n.label.drop loff).length := by
            have hlen := congrArg List.length hkd
            have hmle := matchLen_le_right (n.label.drop loff) key
            simp at hlen
            omega
          have hkeyl : key = n.label.drop loff := by
            have h1 : key = key.take (n.label.drop loff).length := by
              rw [← hkl, List.take_length]
            rw [htake] at h1
            exact h1
          have hslot : slotDenote (n.withSlot (insert_value H rep n.slot v)) loff k'
              = slotDenote n loff k' :=
            slotDenote_withSlot (by rw [← hkeyl]; exact hk')
          rw [hbr, denote, denote, hslot]
        · -- endInTheMiddle: the split is transparent off the key
          have hbr : (insertGo H rep v n loff key).1
              = (n.split H.fresh 1 (loff + matchLen (n.label.drop loff) key)).withSlot
                  (H.setv v) :=
            congrArg Prod.fst (insertGo_eq_endmid H rep v n loff key hkd hld)
          have hlenle : key.length ≤ matchLen (n.label.drop loff) key := by
            have hlen := congrArg List.length hkd
            simp at hlen
            omega
          have hkeyT : key
              = (n.label.drop loff).take (matchLen (n.label.drop loff) key) := by
            rw [matchLen_take, List.take_of_length_le hlenle]
          have hdd : (n.label.drop loff).drop (matchLen (n.label.drop loff) key)
              = n.label.drop (loff + matchLen (n.label.drop loff) key) := by
            rw [List.drop_drop, Nat.add_comm]
          have hbne : n.label.drop (loff + matchLen (n.label.drop loff) key) ≠ [] := by
            rw [← hdd]
            exact hld
          have h1 : slotDenote ((n.split H.fresh 1
              (loff + matchLen (n.label.drop loff) key)).withSlot (H.setv v)) loff k'
              = slotDenote (n.split H.fresh 1
                  (loff + matchLen (n.label.drop loff) key)) loff k' :=
            slotDenote_withSlot (by
              rw [split_label, List.drop_take, Nat.add_sub_cancel_left, ← hkeyT]
              exact hk')
          have h2 : slotDenote (n.split H.fresh 1
              (loff + matchLen (n.label.drop loff) key)) loff k'
              = slotDenote n loff k' :=
            slotDenote_split_other hn (Or.inl rfl) (by omega) hbne (by
              rw [Nat.add_sub_cancel_left, ← hkeyT]
              exact hk')
          rw [hbr, denote, denote, h1, h2]
      · by_cases hld : (n.label.drop loff).drop (matchLen (n.label.drop loff) key) = []
        · have hm : matchLen (n.label.drop loff) key = (n.label.drop loff).length := by
            have h1 := matchLen_le_left (n.label.drop loff) key
            rw [List.drop_eq_nil_iff] at hld
            omega
          have htake : key.take (n.label.drop loff).length = n.label.drop loff :=
            (matchLen_eq_left_iff _ _).mp hm
          have hdrop : key.drop (n.label.drop loff).length = x :: krest := by
            rw [← hm]
            exact hkd
          rcases hfind : tableFind n.children x with _ | ⟨i, c⟩
          · -- noNextEdge: attaching the fresh leaf is transparent off the key
            have hbr : (insertGo H rep v n loff key).1
                = n.withChildren (put n.children
                    (Node.mk (x :: krest) (H.setv v) [])) :=
              congrArg Prod.fst (insertGo_eq_nonext H rep v n loff key hkd hld hfind)
            have hfcnone : findChild n.children x = none :=
              findChild_of_tableFind_none hn.tbl.1 hn.tbl.2.1 hfind
            have harg : n.label.drop loff ++ x :: krest = key := by
              have h0 := List.take_append_drop (n.label.drop loff).length key
              rw [htake, hdrop] at h0
              exact h0
            have hpo := @slotDenote_putLeaf_other W n hn x krest (H.setv v)
              hfcnone loff k' (by rw [harg]; exact hk')
            rw [hbr, denote, denote, hpo]
          · -- descend: the rebuilt child is transparent off its subkey
            obtain ⟨hgd, hkf, _⟩ := tableFind_some_spec hfind
            have hbr : (insertGo H rep v n loff key).1
                = n.withChildren (n.children.set i
                    (some (insertGo H rep v c 1 krest).1)) :=
              congrArg Prod.fst (insertGo_eq_descend H rep v n loff key hkd hld hfind)
            have hcmem : some c ∈ n.children := mem_iff_getD.mpr ⟨i, hgd⟩
            have hcwf : WFn c := hn.child c hcmem
            have hclblne : c.label ≠ [] := (hn.tbl.1 i c hgd).1
            have hclen : 1 ≤ c.label.length := by
              cases hc2 : c.label with
              | nil => exact absurd hc2 hclblne
              | cons a t => simp [hc2]
            have hkrlen : krest.length < L := by
              have hlen := congrArg List.length hkd
              have hmle := matchLen_le_right (n.label.drop loff) key
              simp at hlen
              omega
            have hilt : i < n.children.length := by
              by_contra hge
              rw [List.getD_eq_getElem?_getD, List.getElem?_eq_none (by omega)] at hgd
              simp at hgd
            obtain ⟨ihwf, ihtake, ihlen⟩ := insertGo_WF H rep v krest c 1 hcwf hclen
            have hkfr : (insertGo H rep v c 1 krest).1.kfirst = x :=
              (kfirst_eq_of_take_one ihlen ihtake).trans hkf
            have hwfN : WFn (n.withChildren (n.children.set i
                (some (insertGo H rep v c 1 krest).1))) := by
              have h0 := (insertGo_WF H rep v key n loff hn hloff).1
              rw [hbr] at h0
              exact h0
            have hsOK : slotOK (n.children.set i
                (some (insertGo H rep v c 1 krest).1)) := by
              have := hwfN.tbl.1
              simpa using this
            have hmemr : some (insertGo H rep v c 1 krest).1
                ∈ n.children.set i (some (insertGo H rep v c 1 krest).1) :=
              mem_iff_getD.mpr ⟨i, getD_set_self hilt _ _⟩
            have hfcr : findChild (n.children.set i
                (some (insertGo H rep v c 1 krest).1)) x
                = some (insertGo H rep v c 1 krest).1 :=
              (findChild_eq_some_iff hsOK).mpr ⟨hmemr, hkfr⟩
            by_cases hC : k'.take (n.label.drop loff).length = n.label.drop loff
            · rcases hdd2 : k'.drop (n.label.drop loff).length with _ | ⟨z, rest⟩
              · have e1 : slotDenote (n.withChildren (n.children.set i
                    (some (insertGo H rep v c 1 krest).1))) loff k'
                    = some n.slot := by
                  rw [slotDenote_eq_here
                      (by rw [Node.label_withChildren]; exact hC)
                      (by rw [Node.label_withChildren]; exact hdd2),
                    Node.slot_withChildren]
                have e2 : slotDenote n loff k' = some n.slot :=
                  slotDenote_eq_here hC hdd2
                rw [hbr, denote, denote, e1, e2]
              · by_cases hz : z = x
                · subst hz
                  have hrest : rest ≠ krest := by
                    intro hre
                    apply hk'
                    have h0 := (List.take_append_drop
                      (n.label.drop loff).length k').symm
                    rw [hC, hdd2] at h0
                    have h1 := (List.take_append_drop
                      (n.label.drop loff).length key).symm
                    rw [htake, hdrop] at h1
                    rw [h0, h1, hre]
                  have e1 : slotDenote (n.withChildren (n.children.set i
                      (some (insertGo H rep v c 1 krest).1))) loff k'
                      = slotDenote (insertGo H rep v c 1 krest).1 1 rest := by
                    rw [slotDenote_eq_down
                        (by rw [Node.label_withChildren]; exact hC)
                        (by rw [Node.label_withChildren]; exact hdd2),
                      Node.children_withChildren, hfcr]
                  have e2 : slotDenote n loff k' = slotDenote c 1 rest := by
                    rw [slotDenote_eq_down hC hdd2,
                      findChild_of_tableFind_some hn.tbl.1 hfind]
                  rw [hbr, denote, denote, e1, e2]
                  show denote H (insertGo H rep v c 1 krest).1 1 rest
                      = denote H c 1 rest
                  exact ih krest hkrlen c 1 hcwf hclen rest hrest
                · have hfcz : findChild (n.children.set i
                      (some (insertGo H rep v c 1 krest).1)) z
                      = findChild n.children z := by
                    rcases hf : findChild n.children z with _ | e
                    · apply findChild_none_iff.mpr
                      intro d hd
                      rcases List.mem_or_eq_of_mem_set hd with hd' | hd'
                      · exact findChild_none_iff.mp hf d hd'
                      · have hde : d = (insertGo H rep v c 1 krest).1 :=
                          Option.some_inj.mp hd'
                        rw [hde, hkfr]
                        exact fun he => hz he.symm
                    · obtain ⟨hmemE, hkE⟩ := findChild_some hf
                      apply (findChild_eq_some_iff hsOK).mpr
                      refine ⟨?_, hkE⟩
                      obtain ⟨j, hj⟩ := mem_iff_getD.mp hmemE
                      have hji : i ≠ j := by
                        intro he
                        rw [← he, hgd] at hj
                        cases hj
                        exact hz (hkE.symm.trans hkf)
                      exact mem_iff_getD.mpr ⟨j, by rw [getD_set_ne hji]; exact hj⟩
                  rw [hbr, denote, denote,
                    slotDenote_eq_down
                      (by rw [Node.label_withChildren]; exact hC)
                      (by rw [Node.label_withChildren]; exact hdd2),
                    Node.children_withChildren, hfcz,
                    slotDenote_eq_down hC hdd2]
            · rw [hbr, denote, denote,
                slotDenote_eq_nomatch (by rw [Node.label_withChildren]; exact hC),
                slotDenote_eq_nomatch hC]
        · -- splitInTheMiddle: transparent off the key, and the junction node
          -- gains only a value-less slot
          have hbr : (insertGo H rep v n loff key).1
              = (n.split H.fresh 2
                  (loff + matchLen (n.label.drop loff) key)).withChildren
                  (put (n.split H.fresh 2
                    (loff + matchLen (n.label.drop loff) key)).children
                    (Node.mk (x :: krest) (H.setv v) [])) :=
            congrArg Prod.fst (insertGo_eq_splitmid H rep v n loff key hkd hld)
          have hdd : (n.label.drop loff).drop (matchLen (n.label.drop loff) key)
              = n.label.drop (loff + matchLen (n.label.drop loff) key) := by
            rw [List.drop_drop, Nat.add_comm]
          have hbne : n.label.drop (loff + matchLen (n.label.drop loff) key) ≠ [] := by
            rw [← hdd]
            exact hld
          have hble : loff + matchLen (n.label.drop loff) key ≤ n.label.length := by
            by_contra hgt
            exact hbne (List.drop_eq_nil_iff.mpr (by omega))
          have hmlt1 : matchLen (n.label.drop loff) key
              < (n.label.drop loff).length := by
            have := matchLen_le_left (n.label.drop loff) key
            rcases Nat.lt_or_ge (matchLen (n.label.drop loff) key)
              ((n.label.drop loff).length) with h | h
            · exact h
            · exfalso
              apply hld
              rw [List.drop_eq_nil_iff]
              omega
          have hmlt2 : matchLen (n.label.drop loff) key < key.length := by
            by_contra hge
            rw [List.drop_eq_nil_iff.mpr (by omega)] at hkd
            cases hkd
          have hxne : (Node.mk (n.label.drop
              (loff + matchLen (n.label.drop loff) key))
              n.slot n.children : Node W).kfirst ≠ x := by
            have hstop := matchLen_stop_ne (n.label.drop loff) key hmlt1 hmlt2
            have hx : key.getD (matchLen (n.label.drop loff) key) 0 = x := by
              rw [getD_eq_headD_drop, hkd]
              rfl
            have hl2 : (n.label.drop loff).getD (matchLen (n.label.drop loff) key) 0
                = (Node.mk (n.label.drop (loff + matchLen (n.label.drop loff) key))
                  n.slot n.children : Node W).kfirst := by
              rw [getD_eq_headD_drop, List.drop_drop, Nat.add_comm]
              rfl
            rw [hx, hl2] at hstop
            exact hstop
          have hwn1 : WFn (n.split H.fresh 2
              (loff + matchLen (n.label.drop loff) key)) :=
            (split_WF hn (Or.inr rfl) hbne).1
          have hfindn1 : findChild (n.split H.fresh 2
              (loff + matchLen (n.label.drop loff) key)).children x = none := by
            apply findChild_none_iff.mpr
            intro d hd
            rw [((split_WF hn (Or.inr rfl) hbne).2.2.2.1 d).mp hd]
            exact hxne
          have h0 := List.take_append_drop (matchLen (n.label.drop loff) key) key
          rw [hkd, ← matchLen_take] at h0
          by_cases hT : k' = (n.label.drop loff).take (matchLen (n.label.drop loff) key)
          · -- at the junction: a fresh (value-less) slot appears
            have hpoT := @slotDenote_putLeaf_other W
              (n.split H.fresh 2 (loff + matchLen (n.label.drop loff) key)) hwn1
              x krest (H.setv v) hfindn1 loff k' (by
                rw [split_label, List.drop_take, Nat.add_sub_cancel_left, ← hT]
                intro hc
                have hlc := congrArg List.length hc
                simp at hlc)
            have hss : slotDenote (n.split H.fresh 2
                (loff + matchLen (n.label.drop loff) key)) loff
                ((n.label.drop loff).take
                  (loff + matchLen (n.label.drop loff) key - loff))
                = some H.fresh := slotDenote_split_self (by omega) hble
            rw [Nat.add_sub_cancel_left, ← hT] at hss
            have holdT : slotDenote n loff k' = none := by
              apply slotDenote_eq_nomatch
              intro hc
              have hTlen : k'.length ≤ (n.label.drop loff).length := by
                rw [hT, List.length_take]
                omega
              rw [List.take_of_length_le hTlen] at hc
              have hlc := congrArg List.length hc
              rw [hT, List.length_take] at hlc
              have hmin : min (matchLen (n.label.drop loff) key)
                  (n.label.drop loff).length
                  = matchLen (n.label.drop loff) key :=
                Nat.min_eq_left (Nat.le_of_lt hmlt1)
              rw [hmin] at hlc
              omega
            rw [hbr, denote, denote, hpoT, hss, holdT]
            simp [hfresh]
          · -- off the junction and off the key: fully transparent
            have hpo := @slotDenote_putLeaf_other W
              (n.split H.fresh 2 (loff + matchLen (n.label.drop loff) key)) hwn1
              x krest (H.setv v) hfindn1 loff k' (by
                rw [split_label, List.drop_take, Nat.add_sub_cancel_left, h0]
                exact hk')
            have hso : slotDenote (n.split H.fresh 2
                (loff + matchLen (n.label.drop loff) key)) loff k'
                = slotDenote n loff k' :=
              slotDenote_split_other hn (Or.inr rfl) (by omega) hbne (by
                rw [Nat.add_sub_cancel_left]
                exact hT)
            rw [hbr, denote, denote, hpo, hso]

/-! ## The map-level denotation and the insert lemmas lifted to `trie_map` -/

/-- The `ValueHolder` state stored at `k`, `none` when no node ends at `k`. -/
def TrieMap.slotAt (t : TrieMap W) (k : List Atom) : Option W :=
  match t.root with
  | none => none
  | some r => slotDenote r 0 k

/-- The value the whole map associates to `k` (the abstract partial map). -/
def TrieMap.valueAt {V : Type} (H : Holder W V) (t : TrieMap W)
    (k : List Atom) : Option V :=
  match t.slotAt k with
  | none => none
  | some s => if H.hasv s then some (H.getv s) else none

/-- On a well-formed map, `get` computes the abstract partial map. -/
theorem get_eq_valueAt {V : Type} (H : Holder W V) (t : TrieMap W)
    (k : List Atom) (ht : t.WFt) :
    TrieMap.get H t k = t.valueAt H k := by
  cases hroot : t.root with
  | none => simp only [TrieMap.get, TrieMap.valueAt, TrieMap.slotAt, hroot]
  | some r =>
      simp only [TrieMap.get, TrieMap.valueAt, TrieMap.slotAt, hroot]
      exact search_eq_denote H k r 0 (ht r hroot)

/-- `contains` is `get` with the value thrown away. -/
theorem contains_eq_isSome_get {V : Type} (H : Holder W V) (t : TrieMap W)
    (k : List Atom) :
    TrieMap.contains H t k = (TrieMap.get H t k).isSome := by
  cases hroot : t.root with
  | none => simp [TrieMap.contains, TrieMap.get, hroot]
  | some r =>
      simp only [TrieMap.contains, TrieMap.get, hroot]
      cases ho : (generalSearch r 0 k).outcome with
      | exactMatch nn => cases hH : H.hasv nn.slot <;> simp [hH]
      | endInTheMiddle nn p => rfl
      | splitInTheMiddle nn p ks => rfl
      | noNextEdge nn ks => rfl

/-- `insert` stores `insert_value(old-slot-or-default, v)` at the key. -/
theorem slotAt_insertP_self {V : Type} (H : Holder W V) (rep : V → V → V)
    (t : TrieMap W) (key : List Atom) (v : V) (ht : t.WFt)
    (hfresh : H.hasv H.fresh = false) :
    (TrieMap.insertP H rep t key v).slotAt key
      = some (insert_value H rep ((t.slotAt key).getD H.fresh) v) := by
  cases hroot : t.root with
  | none =>
      simp only [TrieMap.insertP, TrieMap.slotAt, hroot]
      have hself := slotDenote_self_label
        (Node.mk key (H.setv v) ([] : List (Option (Node W)))) 0
      simp only [Node.label_mk, List.drop_zero, Node.slot_mk] at hself
      rw [hself]
      simp [insert_value, hfresh]
  | some r =>
      simp only [TrieMap.insertP, TrieMap.slotAt, hroot]
      exact slotDenote_insertGo_self H rep v hfresh key r 0 (ht r hroot) (by omega)

/-- `insert` does not change the abstract map at any other key. -/
theorem valueAt_insertP_other {V : Type} (H : Holder W V) (rep : V → V → V)
    (t : TrieMap W) (key : List Atom) (v : V) (ht : t.WFt)
    (hfresh : H.hasv H.fresh = false) {k' : List Atom} (hk' : k' ≠ key) :
    (TrieMap.insertP H rep t key v).valueAt H k' = t.valueAt H k' := by
  cases hroot : t.root with
  | none =>
      simp only [TrieMap.insertP, TrieMap.valueAt, TrieMap.slotAt, hroot]
      have hsd : slotDenote (Node.mk key (H.setv v)
          ([] : List (Option (Node W)))) 0 k' = none :=
        slotDenote_no_children (by rw [List.drop_zero]; exact hk')
      rw [hsd]
  | some r =>
      simp only [TrieMap.insertP, TrieMap.valueAt, TrieMap.slotAt, hroot]
      exact denote_insertGo_other H rep v hfresh key r 0 (ht r hroot) (by omega) k' hk'

/-- In map mode, `insert` makes the key map to exactly the new value,
whether or not it was present before. -/
theorem valueAt_insert_self_map {V : Type} [Inhabited V] (t : TrieMap (Option V))
    (ht : t.WFt) (key : List Atom) (v : V) :
    (TrieMap.insert (mapHolder V) t key v).valueAt (mapHolder V) key = some v := by
  simp only [TrieMap.insert, TrieMap.valueAt,
    slotAt_insertP_self (mapHolder V) (fun _old n => n) t key v ht rfl]
  rcases hs : (t.slotAt key).getD (mapHolder V).fresh with _ | old <;>
    simp [insert_value, mapHolder]

/-- In counter mode, `add k 1` increments the stored slot (a fresh slot
counts as `0`). -/
theorem slotAt_add_cnt (t : TrieMap Int) (ht : t.WFt) (key : List Atom) :
    (TrieMap.add cntHolder t key 1).slotAt key
      = some ((t.slotAt key).getD 0 + 1) := by
  rw [TrieMap.add, slotAt_insertP_self cntHolder (fun old n => old + n) t key 1 ht rfl]
  congr 1
  by_cases hs : (t.slotAt key).getD cntHolder.fresh = 0
  · simp [insert_value, cntHolder, hs]
  · simp [insert_value, cntHolder, hs]

/-- `n` repetitions of `add k 1` on an empty counter trie: the map is
well-formed, stores exactly `n` at `k` (absent for `n = 0`), and stores
nothing anywhere else. -/
theorem cnt_iter_spec (key : List Atom) :
    ∀ n : Nat,
      ((fun s => TrieMap.add cntHolder s key 1)^[n] TrieMap.empty).WFt ∧
      ((fun s => TrieMap.add cntHolder s key 1)^[n] TrieMap.empty).slotAt key
        = (if n = 0 then none else some (n : Int)) ∧
      ∀ y, y ≠ key →
        ((fun s => TrieMap.add cntHolder s key 1)^[n] TrieMap.empty).valueAt
          cntHolder y = none := by
  intro n
  induction n with
  | zero => exact ⟨WFt_empty, rfl, fun y _ => rfl⟩
  | succ n ihn =>
      obtain ⟨hwf, hslot, hoth⟩ := ihn
      have hstep : (fun s => TrieMap.add cntHolder s key 1)^[n + 1] TrieMap.empty
          = TrieMap.add cntHolder
              ((fun s => TrieMap.add cntHolder s key 1)^[n] TrieMap.empty) key 1 :=
        Function.iterate_succ_apply' _ _ _
      refine ⟨?_, ?_, ?_⟩
      · rw [hstep]
        exact insertP_WF cntHolder (fun old m => old + m) key 1 hwf
      · rw [hstep, slotAt_add_cnt _ hwf key, hslot]
        cases n with
        | zero => simp
        | succ m =>
            have h1 : (m + 1 : Nat) ≠ 0 := Nat.succ_ne_zero m
            have h2 : (m + 1 + 1 : Nat) ≠ 0 := Nat.succ_ne_zero _
            rw [if_neg h1, if_neg h2, Option.getD_some]
            congr 1
      · intro y hy
        rw [hstep]
        exact (valueAt_insertP_other cntHolder (fun old m => old + m) _ key 1
          hwf rfl hy).trans (hoth y hy)

/-- `find?` on an association list with distinct keys returns the member
with the queried key. -/
theorem find_of_mem_nodup {V : Type} :
    ∀ (ps : List (List Atom × V)) (kv : List Atom × V),
      (ps.map Prod.fst).Nodup → kv ∈ ps →
      ps.find? (fun p => p.1 == kv.1) = some kv := by
  intro ps
  induction ps with
  | nil =>
      intro kv _ hm
      cases hm
  | cons p rest ihp =>
      intro kv hnd hm
      rcases List.mem_cons.mp hm with rfl | hm'
      · rw [List.find?_cons_of_pos _ (by simp)]
      · have hne : p.1 ≠ kv.1 := by
          intro he
          have h1 : kv.1 ∈ rest.map Prod.fst := List.mem_map_of_mem _ hm'
          exact (List.nodup_cons.mp hnd).1 (he ▸ h1)
        rw [List.find?_cons_of_neg _ (by simp [hne])]
        exact ihp kv (List.nodup_cons.mp hnd).2 hm'

theorem find_none_of_not_mem {V : Type} (ps : List (List Atom × V))
    (k : List Atom) (h : k ∉ ps.map Prod.fst) :
    ps.find? (fun p => p.1 == k) = none := by
  apply List.find?_eq_none.mpr
  intro p hp
  simp only [beq_iff_eq]
  intro he
  exact h (he ▸ List.mem_map_of_mem _ hp)

/-- Folding `insert` over distinct-key pairs in map mode: the resulting map
is well-formed, and its abstract map is the association list on top of the
starting map. -/
theorem valueAt_foldl_insert_map {V : Type} [Inhabited V] :
    ∀ (ps : List (List Atom × V)) (t : TrieMap (Option V)), t.WFt →
      (ps.map Prod.fst).Nodup →
      (ps.foldl (fun a kv => TrieMap.insert (mapHolder V) a kv.1 kv.2) t).WFt ∧
      ∀ k, (ps.foldl (fun a kv => TrieMap.insert (mapHolder V) a kv.1 kv.2)
            t).valueAt (mapHolder V) k
        = match ps.find? (fun p => p.1 == k) with
          | some p => some p.2
          | none => t.valueAt (mapHolder V) k := by
  intro ps
  induction ps with
  | nil =>
      intro t ht _
      exact ⟨ht, fun k => rfl⟩
  | cons kv rest ihp =>
      intro t ht hnd
      have ht' : (TrieMap.insert (mapHolder V) t kv.1 kv.2).WFt :=
        insertP_WF (mapHolder V) (fun _old n => n) kv.1 kv.2 ht
      have hnotin : kv.1 ∉ rest.map Prod.fst := (List.nodup_cons.mp hnd).1
      obtain ⟨hwf2, hval2⟩ :=
        ihp (TrieMap.insert (mapHolder V) t kv.1 kv.2) ht'
          (List.nodup_cons.mp hnd).2
      refine ⟨hwf2, ?_⟩
      intro k
      rw [List.foldl_cons, hval2 k]
      by_cases hkk : kv.1 = k
      · subst hkk
        have hfr : rest.find? (fun p => p.1 == kv.1) = none :=
          find_none_of_not_mem rest kv.1 hnotin
        rw [hfr, List.find?_cons_of_pos _ (by simp)]
        exact valueAt_insert_self_map t ht kv.1 kv.2
      · rw [List.find?_cons_of_neg _ (by simp [hkk])]
        rcases hf2 : rest.find? (fun p => p.1 == k) with _ | p
        · rw [hf2]
          exact valueAt_insertP_other (mapHolder V) (fun _old n => n) t kv.1 kv.2
            ht rfl (fun he => hkk he.symm)
        · rw [hf2]

/-! ## The size counter and the search outcome -/

/-- `insert` bumps `msize` exactly when the fused search does not end in
*exactMatch* (the two routines branch on identical conditions). -/
theorem insertGo_snd_eq_outcome {V : Type} (H : Holder W V) (rep : V → V → V)
    (v : V) :
    ∀ (key : List Atom) (n : Node W) (loff : Nat),
      (insertGo H rep v n loff key).2
        = match (generalSearch n loff key).outcome with
          | .exactMatch _ => false
          | _ => true := by
  suffices hmain : ∀ (L : Nat) (key : List Atom), key.length < L →
      ∀ (n : Node W) (loff : Nat),
      (insertGo H rep v n loff key).2
        = match (generalSearch n loff key).outcome with
          | .exactMatch _ => false
          | _ => true by
    intro key n loff
    exact hmain (key.length + 1) key (Nat.lt_succ_self _) n loff
  intro L
  induction L with
  | zero =>
      intro key hk
      exact absurd hk (Nat.not_lt_zero _)
  | succ L ih =>
      intro key hkey n loff
      rcases hkd : key.drop (matchLen (n.label.drop loff) key) with _ | ⟨x, krest⟩
      · by_cases hld : (n.label.drop loff).drop (matchLen (n.label.drop loff) key) = []
        · have hbr : (insertGo H rep v n loff key).2 = false :=
            congrArg Prod.snd (insertGo_eq_exact H rep v n loff key hkd hld)
          rw [hbr, generalSearch_eq_exact n loff key hkd hld]
        · have hbr : (insertGo H rep v n loff key).2 = true :=
            congrArg Prod.snd (insertGo_eq_endmid H rep v n loff key hkd hld)
          rw [hbr, generalSearch_eq_endmid n loff key hkd hld]
      · by_cases hld : (n.label.drop loff).drop (matchLen (n.label.drop loff) key) = []
        · rcases hfind : tableFind n.children x with _ | ⟨i, c⟩
          · have hbr : (insertGo H rep v n loff key).2 = true :=
              congrArg Prod.snd (insertGo_eq_nonext H rep v n loff key hkd hld hfind)
            rw [hbr, generalSearch_eq_nonext n loff key hkd hld hfind]
          · have hbr0 := congrArg Prod.snd
              (insertGo_eq_descend H rep v n loff key hkd hld hfind)
            have hkrlen : krest.length < L := by
              have hlen := congrArg List.length hkd
              have hmle := matchLen_le_right (n.label.drop loff) key
              simp at hlen
              omega
            rw [hbr0, generalSearch_eq_descend n loff key hkd hld hfind]
            show (insertGo H rep v c 1 krest).2
                = match (generalSearch c 1 krest).outcome with
                  | .exactMatch _ => false
                  | _ => true
            exact ih krest hkrlen c 1
        · have hbr : (insertGo H rep v n loff key).2 = true :=
            congrArg Prod.snd (insertGo_eq_splitmid H rep v n loff key hkd hld)
          rw [hbr, generalSearch_eq_splitmid n loff key hkd hld]

/-- C10: for every trie state and every finite query key the generic descent
routine `general_search` terminates (the model is a total function), and each
loop iteration either invokes one terminal action and returns or descends an
edge after consuming at least one atom of the remaining query, so the number
of descents is bounded by the key length. -/
theorem C10_generalSearch_descents_le :
    ∀ (key : List Atom) (n : Node W) (loff : Nat),
      (generalSearch n loff key).descents ≤ key.length := by
  suffices hmain : ∀ (L : Nat) (key : List Atom), key.length < L →
      ∀ (n : Node W) (loff : Nat),
      (generalSearch n loff key).descents ≤ key.length by
    intro key n loff
    exact hmain (key.length + 1) key (Nat.lt_succ_self _) n loff
  intro L
  induction L with
  | zero =>
      intro key hk
      exact absurd hk (Nat.not_lt_zero _)
  | succ L ih =>
      intro key hkey n loff
      rcases hkd : key.drop (matchLen (n.label.drop loff) key) with _ | ⟨x, krest⟩
      · by_cases hld : (n.label.drop loff).drop (matchLen (n.label.drop loff) key) = []
        · rw [generalSearch_eq_exact n loff key hkd hld]
          exact Nat.zero_le _
        · rw [generalSearch_eq_endmid n loff key hkd hld]
          exact Nat.zero_le _
      · by_cases hld : (n.label.drop loff).drop (matchLen (n.label.drop loff) key) = []
        · rcases hfind : tableFind n.children x with _ | ⟨i, c⟩
          · rw [generalSearch_eq_nonext n loff key hkd hld hfind]
            exact Nat.zero_le _
          · have hkrlen : krest.length < L := by
              have hlen := congrArg List.length hkd
              have hmle := matchLen_le_right (n.label.drop loff) key
              simp at hlen
              omega
            have hlen := congrArg List.length hkd
            simp at hlen
            have hrec := ih krest hkrlen c 1
            rw [generalSearch_eq_descend n loff key hkd hld hfind]
            show (generalSearch c 1 krest).descents + 1 ≤ key.length
            omega
        · rw [generalSearch_eq_splitmid n loff key hkd hld]
          exact Nat.zero_le _

/-! ## The claims -/

/-- C1: for any multiset of (key, value) pairs in which each key is inserted
exactly once (in any order), after all the inserts `get k` returns the
inserted value for every inserted key `k`, and `get k'` returns absent for
every key `k'` that was not inserted. -/
theorem C1_insert_get_roundtrip {V : Type} [Inhabited V]
    (ps : List (List Atom × V)) (hnd : (ps.map Prod.fst).Nodup) :
    (∀ kv ∈ ps,
      TrieMap.get (mapHolder V)
        (ps.foldl (fun a p => TrieMap.insert (mapHolder V) a p.1 p.2)
          TrieMap.empty) kv.1 = some kv.2) ∧
    ∀ k', k' ∉ ps.map Prod.fst →
      TrieMap.get (mapHolder V)
        (ps.foldl (fun a p => TrieMap.insert (mapHolder V) a p.1 p.2)
          TrieMap.empty) k' = none := by
  obtain ⟨hwf, hval⟩ := valueAt_foldl_insert_map ps TrieMap.empty WFt_empty hnd
  constructor
  · intro kv hm
    rw [get_eq_valueAt (mapHolder V) _ kv.1 hwf, hval kv.1,
      find_of_mem_nodup ps kv hnd hm]
  · intro k' hk'
    rw [get_eq_valueAt (mapHolder V) _ k' hwf, hval k',
      find_none_of_not_mem ps k' hk']
    rfl

theorem C1_insert_get_roundtrip_witness :
    TrieMap.get (mapHolder Nat)
      ([([0], 1), ([1], 2)].foldl
        (fun a p => TrieMap.insert (mapHolder Nat) a p.1 p.2) TrieMap.empty)
      [0] = some 1 ∧
    TrieMap.get (mapHolder Nat)
      ([([0], 1), ([1], 2)].foldl
        (fun a p => TrieMap.insert (mapHolder Nat) a p.1 p.2) TrieMap.empty)
      [5] = none :=
  ⟨(C1_insert_get_roundtrip [([0], 1), ([1], 2)] (by decide)).1
      ([0], 1) (by decide),
   (C1_insert_get_roundtrip [([0], 1), ([1], 2)] (by decide)).2
      [5] (by decide)⟩

/-- C2 (code bug): on the trie {[1,2] ↦ 1, [1,3] ↦ 2} the query `[1]` ends in
*exactMatch* at the valueless interior root without descending any edge, so
`find_prefix_int` reaches `std::copy(it, inputEnd, ...)` with the local
`inputEnd` never assigned — the model's `uninitCopy` undefined behaviour —
instead of returning a cursor that enumerates the two keys with prefix
`[1]`. -/
theorem C2_findPre_reads_uninit_inputEnd :
    TrieMap.findPre (mapHolder Nat)
      (TrieMap.insert (mapHolder Nat)
        (TrieMap.insert (mapHolder Nat) TrieMap.empty [1, 2] 1) [1, 3] 2) [1]
      = FindPreResult.uninitCopy := by
  simp [TrieMap.findPre, TrieMap.findPreFinish, normalizeC, Cursor.nextValueF,
    Cursor.next, Cursor.step_down, Cursor.step_fore, Cursor.step_up,
    Cursor.nextPop, Cursor.get0, Cursor.getUp, Cursor.curHasValue,
    walkPtrs, firstLiveFrom, dfsFuel, nodeCount, nodeCountT,
    TrieMap.insert, TrieMap.insertP, TrieMap.empty, insertGo, generalSearch,
    matchLen, tableFind, put, resize, atom_hash, least_uncolliding_size,
    Node.split, Node.kfirst, insert_value, mapHolder, Node.withSlot,
    Node.withChildren]

/-- C3 (amended): `insert` increments `size()` exactly when the fused search
does not end in *exactMatch* (an empty trie always increments); in
particular, inserting a key that ends exactly at an existing valueless
interior node stores the value but leaves `size()` unchanged, contrary to
the original claim. -/
theorem C3_size_increments_iff_not_exact {V : Type} (H : Holder W V)
    (rep : V → V → V) (t : TrieMap W) (key : List Atom) (v : V) :
    (TrieMap.insertP H rep t key v).msize
      = match t.root with
        | none => t.msize + 1
        | some r =>
            match (generalSearch r 0 key).outcome with
            | .exactMatch _ => t.msize
            | _ => t.msize + 1 := by
  cases hroot : t.root with
  | none => simp [TrieMap.insertP, hroot]
  | some r =>
      simp only [TrieMap.insertP, hroot]
      rw [insertGo_snd_eq_outcome H rep v key r 0]
      cases ho : (generalSearch r 0 key).outcome with
      | exactMatch nn => simp
      | endInTheMiddle nn p => simp
      | splitInTheMiddle nn p ks => simp
      | noNextEdge nn ks => simp

/-- C3 (counterexample to the original claim): after inserting [0,1], [0,2]
and then [0], the key [0] ends exactly at the interior junction node; all
three keys bear values, yet `size()` is 2, not 3. -/
theorem C3_interior_key_size_unchanged :
    (TrieMap.insert (mapHolder Nat) (TrieMap.insert (mapHolder Nat)
        (TrieMap.insert (mapHolder Nat) TrieMap.empty [0, 1] 1) [0, 2] 2)
        [0] 3).msize = 2 ∧
    TrieMap.get (mapHolder Nat)
      (TrieMap.insert (mapHolder Nat) (TrieMap.insert (mapHolder Nat)
        (TrieMap.insert (mapHolder Nat) TrieMap.empty [0, 1] 1) [0, 2] 2)
        [0] 3) [0] = some 3 ∧
    TrieMap.get (mapHolder Nat)
      (TrieMap.insert (mapHolder Nat) (TrieMap.insert (mapHolder Nat)
        (TrieMap.insert (mapHolder Nat) TrieMap.empty [0, 1] 1) [0, 2] 2)
        [0] 3) [0, 1] = some 1 ∧
    TrieMap.get (mapHolder Nat)
      (TrieMap.insert (mapHolder Nat) (TrieMap.insert (mapHolder Nat)
        (TrieMap.insert (mapHolder Nat) TrieMap.empty [0, 1] 1) [0, 2] 2)
        [0] 3) [0, 2] = some 2 := by
  refine ⟨?_, ?_, ?_, ?_⟩ <;>
    simp [TrieMap.insert, TrieMap.insertP, TrieMap.empty, TrieMap.get,
      insertGo, generalSearch, matchLen, tableFind, put, resize, atom_hash,
      least_uncolliding_size, Node.split, Node.kfirst, insert_value,
      mapHolder, Node.withSlot, Node.withChildren]

/-- C4 (code bug): on the non-empty trie {[1,2] ↦ 1} the absent query `[9]`
ends in *splitInTheMiddle*; `find` resets the output pointer and then
constructs `iterator(output)`, whose `normalize()` dereferences the null
`_impl` — the model's `nullDeref` undefined behaviour — instead of returning
the end cursor. -/
theorem C4_find_null_deref :
    TrieMap.find (mapHolder Nat)
      (TrieMap.insert (mapHolder Nat) TrieMap.empty [1, 2] 1) [9]
      = FindResult.nullDeref := by
  simp [TrieMap.find, TrieMap.insert, TrieMap.insertP, TrieMap.empty,
    generalSearch, matchLen, tableFind, put, resize, atom_hash,
    least_uncolliding_size, Node.split, Node.kfirst, insert_value, mapHolder,
    Node.withSlot, Node.withChildren]

/-- C5 (code bug): on the trie {[1,2,3] ↦ 1} the query `[1,2]` is resolved
entirely within the root node (*endInTheMiddle*, no edge descended), so the
`base_prefix` fill `std::copy(it, inputEnd, ...)` reads the never-assigned
local `inputEnd` — the model's `uninitCopy` undefined behaviour — rather
than pre-filling the consumed query atoms before the reached node's label. -/
theorem C5_findPre_basePref_uninit :
    TrieMap.findPre (mapHolder Nat)
      (TrieMap.insert (mapHolder Nat) TrieMap.empty [1, 2, 3] 1) [1, 2]
      = FindPreResult.uninitCopy := by
  simp [TrieMap.findPre, TrieMap.findPreFinish, normalizeC, Cursor.nextValueF,
    Cursor.next, Cursor.step_down, Cursor.step_fore, Cursor.step_up,
    Cursor.nextPop, Cursor.get0, Cursor.getUp, Cursor.curHasValue,
    walkPtrs, firstLiveFrom, dfsFuel, nodeCount, nodeCountT,
    TrieMap.insert, TrieMap.insertP, TrieMap.empty, insertGo, generalSearch,
    matchLen, tableFind, put, resize, atom_hash, least_uncolliding_size,
    Node.split, Node.kfirst, insert_value, mapHolder, Node.withSlot,
    Node.withChildren]

/-- C6: after every sequence of insert/add operations, every node of the
trie satisfies I1 and I5: no two children of a node have labels beginning
with the same atom, and any two children's first atoms occupy distinct
hash slots of the node's table (so `put`'s re-hash never collides and never
loses a child). -/
theorem C6_all_nodes_I1_I5 {V : Type} (H : Holder W V)
    (ops : List ((V → V → V) × List Atom × V)) (r : Node W)
    (hr : (applyOps H ops TrieMap.empty).root = some r) :
    AllNodes nodeI1I5 r :=
  WFn_allNodes_I1I5 (applyOps_WF H ops WFt_empty r hr)

theorem C6_all_nodes_I1_I5_witness :
    (applyOps (mapHolder Nat) [(fun _o n => n, [0], 1)] TrieMap.empty).root
        = some (Node.mk [0] (some 1) []) ∧
    AllNodes nodeI1I5
      (Node.mk [0] (some 1) ([] : List (Option (Node (Option Nat))))) :=
  ⟨rfl, C6_all_nodes_I1_I5 (mapHolder Nat) [(fun _o n => n, [0], 1)]
    (Node.mk [0] (some 1) []) rfl⟩

/-- C7: after every sequence of insert/add operations, every node with
exactly two children whose labels begin with `a ≠ b` has child-table size
exactly `least_uncolliding_size a b = ((a ^^^ b) &&& lowbit) <<< 1`, which is
the smallest power of two strictly larger than the lowest set bit of
`a ^^^ b` (exact integer bit arithmetic); a third sibling can only grow the
table by the same rule (the adaptive-size law is an invariant). -/
theorem C7_adaptive_table_size {V : Type} (H : Holder W V)
    (ops : List ((V → V → V) × List Atom × V)) (r : Node W)
    (hr : (applyOps H ops TrieMap.empty).root = some r) :
    AllNodes nodeAdaptive r ∧
    ∀ a b : Atom, a ≠ b →
      ∃ t, least_uncolliding_size a b = 2 ^ (t + 1) ∧
        a % 2 ^ (t + 1) ≠ b % 2 ^ (t + 1) ∧
        ∀ s, a % 2 ^ s = b % 2 ^ s → s ≤ t :=
  ⟨WFn_allNodes_adaptive (applyOps_WF H ops WFt_empty r hr),
   fun _a _b hab => least_uncolliding_spec hab⟩

theorem C7_adaptive_table_size_witness :
    (applyOps (mapHolder Nat) [(fun _o n => n, [2], 5)] TrieMap.empty).root
        = some (Node.mk [2] (some 5) []) ∧
    (AllNodes nodeAdaptive
      (Node.mk [2] (some 5) ([] : List (Option (Node (Option Nat))))) ∧
     ∀ a b : Atom, a ≠ b →
      ∃ t, least_uncolliding_size a b = 2 ^ (t + 1) ∧
        a % 2 ^ (t + 1) ≠ b % 2 ^ (t + 1) ∧
        ∀ s, a % 2 ^ s = b % 2 ^ s → s ≤ t) :=
  ⟨rfl, C7_adaptive_table_size (mapHolder Nat) [(fun _o n => n, [2], 5)]
    (Node.mk [2] (some 5) []) rfl⟩

/-- C8 (amended): `insert` overwrites an existing value with the new one,
and `add` accumulates with `+=`; in counter mode, `n` repetitions of
`add k 1` on an empty trie — for every `1 ≤ n ≤ INT_MAX = 2^31 - 1`, the
range on which the signed 32-bit `+=` of the source is defined — make
`get k` return exactly `n`, with every increment performed along the way a
defined `int` addition agreeing with the model (`intAdd`); `contains k` is
true and `contains` of a never-added key is false.  Beyond that range the
original claim fails: see the overflow counterexample. -/
theorem C8_replace_policies {V : Type} [Inhabited V] (t : TrieMap (Option V))
    (ht : t.WFt) (k : List Atom) (v1 v2 : V) (key y : List Atom) (n : Nat)
    (hn : 1 ≤ n) (hn2 : n ≤ 2147483647) (hy : y ≠ key) :
    TrieMap.get (mapHolder V)
      (TrieMap.insert (mapHolder V)
        (TrieMap.insert (mapHolder V) t k v1) k v2) k = some v2 ∧
    TrieMap.get cntHolder ((fun s => TrieMap.add cntHolder s key 1)^[n]
      TrieMap.empty) key = some (n : Int) ∧
    TrieMap.contains cntHolder ((fun s => TrieMap.add cntHolder s key 1)^[n]
      TrieMap.empty) key = true ∧
    TrieMap.contains cntHolder ((fun s => TrieMap.add cntHolder s key 1)^[n]
      TrieMap.empty) y = false ∧
    ∀ m : Nat, m + 1 ≤ n → intAdd (m : Int) 1 = some ((m : Int) + 1) := by
  obtain ⟨hwf, hslot, hoth⟩ := cnt_iter_spec key n
  have hget : TrieMap.get cntHolder
      ((fun s => TrieMap.add cntHolder s key 1)^[n] TrieMap.empty) key
      = some (n : Int) := by
    rw [get_eq_valueAt cntHolder _ key hwf]
    simp only [TrieMap.valueAt]
    rw [hslot, if_neg (show ¬ n = 0 by omega)]
    have hne : ((n : Nat) : Int) ≠ 0 := Int.natCast_ne_zero.mpr (by omega)
    simp [cntHolder, hne]
  refine ⟨?_, hget, ?_, ?_, ?_⟩
  · have ht1 : (TrieMap.insert (mapHolder V) t k v1).WFt :=
      insertP_WF (mapHolder V) (fun _o nn => nn) k v1 ht
    have ht2 : (TrieMap.insert (mapHolder V)
        (TrieMap.insert (mapHolder V) t k v1) k v2).WFt :=
      insertP_WF (mapHolder V) (fun _o nn => nn) k v2 ht1
    rw [get_eq_valueAt (mapHolder V) _ k ht2]
    exact valueAt_insert_self_map _ ht1 k v2
  · rw [contains_eq_isSome_get, hget]
    rfl
  · rw [contains_eq_isSome_get, get_eq_valueAt cntHolder _ y hwf, hoth y hy]
    rfl
  · intro m hm
    have hc : INT_MIN ≤ (m : Int) + 1 ∧ (m : Int) + 1 ≤ INT_MAX := by
      simp only [INT_MIN, INT_MAX]
      omega
    rw [intAdd, if_pos hc]

theorem C8_replace_policies_witness :
    TrieMap.get (mapHolder Nat)
      (TrieMap.insert (mapHolder Nat)
        (TrieMap.insert (mapHolder Nat) TrieMap.empty [0] 1) [0] 2) [0]
      = some 2 ∧
    TrieMap.get cntHolder ((fun s => TrieMap.add cntHolder s [1] 1)^[3]
      TrieMap.empty) [1] = some (3 : Int) ∧
    TrieMap.contains cntHolder ((fun s => TrieMap.add cntHolder s [1] 1)^[3]
      TrieMap.empty) [1] = true ∧
    TrieMap.contains cntHolder ((fun s => TrieMap.add cntHolder s [1] 1)^[3]
      TrieMap.empty) [2] = false :=
  have h := C8_replace_policies TrieMap.empty WFt_empty [0] 1 2 [1] [2] 3
    (by decide) (by decide) (by decide)
  ⟨h.1, h.2.1, h.2.2.1, h.2.2.2.1⟩

/-- C8 (counterexample to the original claim's "for every n ≥ 1"): after
`2^31 - 1` additions the counter holds `INT_MAX`, and each of those
increments was a defined signed-`int` addition — but the `2^31`-th
`old += 1` overflows the 32-bit `int` (undefined behaviour, `intAdd = none`),
so `get k` cannot return `n` at `n = 2^31`. -/
theorem C8_counter_overflow :
    ((fun s => TrieMap.add cntHolder s [1] 1)^[2147483647]
        TrieMap.empty).slotAt [1] = some INT_MAX ∧
    (∀ m : Nat, m + 1 ≤ 2147483647 →
      intAdd (m : Int) 1 = some ((m : Int) + 1)) ∧
    intAdd INT_MAX 1 = none := by
  refine ⟨?_, ?_, ?_⟩
  · have h := (cnt_iter_spec [1] 2147483647).2.1
    rw [if_neg (by norm_num)] at h
    rw [h]
    norm_num [INT_MAX]
  · intro m hm
    have hc : INT_MIN ≤ (m : Int) + 1 ∧ (m : Int) + 1 ≤ INT_MAX := by
      simp only [INT_MIN, INT_MAX]
      omega
    rw [intAdd, if_pos hc]
  · have hc : ¬ (INT_MIN ≤ INT_MAX + 1 ∧ INT_MAX + 1 ≤ INT_MAX) := by
      simp only [INT_MIN, INT_MAX]
      omega
    rw [intAdd, if_neg hc]

/-- C9: splitting at break index `m` leaves the node with the first `m`
atoms of its label and gives the successor the rest, under both
`PrefixHolder` storage variants (chunked arena and the per-label
`CMinChunkSize = 0` specialization), which therefore agree on the resulting
labels; immediately after `split` the original node has no value and exactly
one child — the successor, holding the former value and children. -/
theorem C9_split_refinement {V : Type} (H : Holder W V)
    (hfresh : H.hasv H.fresh = false)
    (pC : PrefixHolderC) (p0 : PrefixHolder0) (m : Nat)
    (hmC : m ≤ pC.eidx - pC.bidx) (hm0 : m ≤ p0.plen)
    {n : Node W} (hn : WFn n) (hint : Nat) (hhint : hint = 1 ∨ hint = 2)
    (hne : n.label.drop m ≠ []) :
    ((pC.psplit m).1.label = pC.label.take m ∧
     (pC.psplit m).2.label = pC.label.drop m) ∧
    ((p0.psplit m).1.label = p0.label.take m ∧
     (p0.psplit m).2.label = p0.label.drop m) ∧
    ((n.split H.fresh hint m).label = n.label.take m ∧
     H.hasv (n.split H.fresh hint m).slot = false ∧
     (∀ c, some c ∈ (n.split H.fresh hint m).children ↔
        c = Node.mk (n.label.drop m) n.slot n.children) ∧
     (liveList (n.split H.fresh hint m).children).length = 1) := by
  obtain ⟨hw, hlab, hslot, hmm2, hcnt⟩ := split_WF hn hhint hne
  refine ⟨⟨?_, ?_⟩, ⟨?_, ?_⟩, hlab, ?_, hmm2, hcnt⟩
  · simp only [PrefixHolderC.psplit, PrefixHolderC.label]
    rw [Nat.add_sub_cancel_left, List.take_take, Nat.min_eq_left hmC]
  · simp only [PrefixHolderC.psplit, PrefixHolderC.label]
    rw [List.drop_take, List.drop_drop, ← Nat.sub_sub]
  · simp only [PrefixHolder0.psplit, PrefixHolder0.label]
    rw [List.take_take, Nat.min_eq_left hm0, Nat.sub_sub_self hm0]
  · simp only [PrefixHolder0.psplit, PrefixHolder0.label]
    rw [List.drop_take, List.drop_drop]
  · rw [hslot]
    exact hfresh

theorem C9_split_refinement_witness :
    (PrefixHolderC.psplit ⟨[7, 8, 9], 0, 2⟩ 1).1.label
        = (PrefixHolderC.label ⟨[7, 8, 9], 0, 2⟩).take 1 ∧
    (PrefixHolder0.psplit ⟨[7, 8, 9], 0, 2⟩ 1).2.label
        = (PrefixHolder0.label ⟨[7, 8, 9], 0, 2⟩).drop 1 ∧
    (Node.split (Node.mk [7, 8] (some 4) []) (mapHolder Nat).fresh 1 1).label
        = [7, 8].take 1 :=
  have h := C9_split_refinement (mapHolder Nat) rfl ⟨[7, 8, 9], 0, 2⟩
    ⟨[7, 8, 9], 0, 2⟩ 1 (by decide) (by decide)
    (WFn_leaf [7, 8] (some 4)) 1 (Or.inl rfl) (by decide)
  ⟨h.1.1, h.2.1.2, h.2.2.1⟩

end Trie
